import Mathlib

/-!
Verification of the eBookForgePro manuscript assembly core.

Strings are modelled as `List Char`.  Each definition is a shallow
embedding of the corresponding Python function from
`src/ebookforgepro/core.py`, `src/ebookforgepro/ai.py` and
`EbookForgePro_final.py`.  Python `str.replace` on single characters is a
character map; `str.replace("--", ",")` is the left-to-right
non-overlapping scan `replaceDH`; the regular-expression substitutions in
`clean_text` are the run-collapsing functions below; `str.strip()` drops
Unicode-whitespace characters from both ends.
-/

/-- Unicode whitespace as used by Python `str.strip` / `str.split`
(characters for which `str.isspace()` is true). -/
def pyWS (c : Char) : Bool :=
  let n := c.toNat
  n == 0x20 || (0x09 ≤ n && n ≤ 0x0d) || (0x1c ≤ n && n ≤ 0x1f) || n == 0x85 ||
  n == 0xa0 || n == 0x1680 || (0x2000 ≤ n && n ≤ 0x200a) || n == 0x2028 ||
  n == 0x2029 || n == 0x202f || n == 0x205f || n == 0x3000

/-- Characters matched by the regex class `[\t\r\f\v]` in `clean_text`. -/
def isTRFV (c : Char) : Bool :=
  c == '\t' || c == '\r' || c == Char.ofNat 12 || c == Char.ofNat 11

/-- Characters matched by the regex class `[ \t]` in `clean_text`. -/
def isSP (c : Char) : Bool := c == ' ' || c == '\t'

/-- Newline test, for the regex `\n{3,}`. -/
def isNL (c : Char) : Bool := c == '\n'

/-- Hyphen test, for tracking the `--` pattern. -/
def isHy (c : Char) : Bool := c == '-'

/-- Em-dash U+2014, replaced by `clean_text`. -/
def emDash : Char := Char.ofNat 0x2014

/-- Left curly double quote U+201C. -/
def ldq : Char := Char.ofNat 0x201C

/-- Right curly double quote U+201D. -/
def rdq : Char := Char.ofNat 0x201D

/-- Right curly single quote U+2019. -/
def rsq : Char := Char.ofNat 0x2019

/-- Left curly single quote U+2018. -/
def lsq : Char := Char.ofNat 0x2018

/-- Python `s.replace("--", ",")`: left-to-right, non-overlapping. -/
def replaceDH : List Char → List Char
  | [] => []
  | [c] => [c]
  | a :: b :: rest =>
    if a = '-' ∧ b = '-' then ',' :: replaceDH rest
    else a :: replaceDH (b :: rest)

/-- Python `s.replace(a, b)` for single characters `a`, `b`. -/
def repC (a b : Char) (l : List Char) : List Char :=
  l.map fun c => if c = a then b else c

/-- Python `re.sub(r"[\t\r\f\v]", " ", s)`. -/
def mapTRFV (l : List Char) : List Char :=
  l.map fun c => if isTRFV c then ' ' else c

/-- Scanner for `re.sub(r"\n{3,}", "\n\n", s)`.  The accumulator `k`
(capped at 2) counts the newlines of the current run already read; a
newline read while `k = 2` belongs to a run of length at least three and
is dropped, so every maximal run of three or more newlines is emitted as
exactly two, and shorter runs are kept verbatim. -/
def cNL (k : Nat) : List Char → List Char
  | [] => []
  | c :: r =>
    if isNL c then
      if 2 ≤ k then cNL 2 r else c :: cNL (k + 1) r
    else c :: cNL 0 r

/-- Python `re.sub(r"\n{3,}", "\n\n", s)`. -/
def collapseNL (l : List Char) : List Char := cNL 0 l

/-- Scanner state for `re.sub(r"[ \t]{2,}", " ", s)`: either outside a
space/tab run, or holding one pending space/tab (a run of length one is
kept verbatim), or skipping the tail of a run already replaced by a
single space. -/
inductive SPState where
  | clean : SPState
  | pending : Char → SPState
  | skipping : SPState

/-- Scanner for `re.sub(r"[ \t]{2,}", " ", s)`: every maximal run of two
or more spaces/tabs is emitted as one single space; a lone space or tab
is kept verbatim. -/
def cSP (s : SPState) : List Char → List Char
  | [] => match s with
    | .pending p => [p]
    | _ => []
  | c :: r => match s with
    | .clean => if isSP c then cSP (.pending c) r else c :: cSP .clean r
    | .pending p => if isSP c then ' ' :: cSP .skipping r else p :: c :: cSP .clean r
    | .skipping => if isSP c then cSP .skipping r else c :: cSP .clean r

/-- Python `re.sub(r"[ \t]{2,}", " ", s)`. -/
def collapseSP (l : List Char) : List Char := cSP .clean l

/-- Left part of Python `str.strip()`. -/
def lstrip (l : List Char) : List Char := l.dropWhile pyWS

/-- Right part of Python `str.strip()`. -/
def rstrip (l : List Char) : List Char := (l.reverse.dropWhile pyWS).reverse

/-- Python `str.strip()`. -/
def pstrip (l : List Char) : List Char := rstrip (lstrip l)

/-- The option record of `clean_text` (`CLEAN_OPTS` in core.py). -/
structure CleanOpts where
  replace_double_hyphen : Bool
  replace_emdash : Bool
  normalize_ws : Bool
  smart_quotes : Bool

/-- Default options: all rules on. -/
def defaultOpts : CleanOpts :=
  ⟨true, true, true, true⟩

/-- Embedding of `clean_text(s, opts)` from core.py (identical code in
EbookForgePro_final.py): double-hyphen to comma, em-dash to comma, smart
quotes to straight quotes, whitespace normalization, final strip. -/
def cleanText (opts : CleanOpts) (s : List Char) : List Char :=
  let s1 := if opts.replace_double_hyphen then replaceDH s else s
  let s2 := if opts.replace_emdash then repC emDash ',' s1 else s1
  let s3 := if opts.smart_quotes then
      repC lsq '\'' (repC rsq '\'' (repC rdq '"' (repC ldq '"' s2))) else s2
  let s4 := if opts.normalize_ws then
      collapseSP (collapseNL (mapTRFV s3)) else s3
  pstrip s4

/-- Text normalizer with default options, `clean_text(s)` in the source. -/
def clean_text (s : List Char) : List Char := cleanText defaultOpts s

/-- Adjacent-pair pattern detector: is there an adjacent pair of
characters both satisfying `p`? -/
def hasPair (p : Char → Bool) : List Char → Bool
  | a :: b :: rest => (p a && p b) || hasPair p (b :: rest)
  | _ => false

/-- Adjacent-triple pattern detector. -/
def hasTriple (p : Char → Bool) : List Char → Bool
  | a :: b :: c :: rest => (p a && p b && p c) || hasTriple p (b :: c :: rest)
  | _ => false

/-- Character-occurrence detector. -/
def hasChar (c : Char) (l : List Char) : Bool := l.any fun x => x == c

/-- Any character satisfying `p` occurs. -/
def hasAny (p : Char → Bool) (l : List Char) : Bool := l.any p

/-- First character (if any) does not satisfy `p`. -/
def headSafe (p : Char → Bool) : List Char → Bool
  | [] => true
  | c :: _ => !p c

/-- Line-boundary characters recognized by Python `str.splitlines`. -/
def isLineBreak (c : Char) : Bool :=
  c == '\n' || c == '\r' || c == Char.ofNat 11 || c == Char.ofNat 12 ||
  c == Char.ofNat 0x1c || c == Char.ofNat 0x1d || c == Char.ofNat 0x1e ||
  c == Char.ofNat 0x85 || c == Char.ofNat 0x2028 || c == Char.ofNat 0x2029

/-- Scanner for Python `str.splitlines`; `skip` is true right after a
carriage return so that a following newline does not open an empty line
(the CRLF pair counts as one boundary). -/
def splitlinesAux (skip : Bool) (cur : List Char) : List Char → List (List Char)
  | [] => if cur = [] then [] else [cur.reverse]
  | c :: r =>
    if skip = true ∧ c = '\n' then splitlinesAux false [] r
    else if c = '\r' then cur.reverse :: splitlinesAux true [] r
    else if isLineBreak c then cur.reverse :: splitlinesAux false [] r
    else splitlinesAux false (c :: cur) r

/-- Python `str.splitlines`. -/
def splitlines (l : List Char) : List (List Char) := splitlinesAux false [] l

/-- Scanner for Python `str.split(sep)` with a one-character separator. -/
def splitChAux (sep : Char) (cur : List Char) : List Char → List (List Char)
  | [] => [cur.reverse]
  | c :: r =>
    if c = sep then cur.reverse :: splitChAux sep [] r
    else splitChAux sep (c :: cur) r

/-- Python `s.split(sep)` for a one-character separator (keeps empties). -/
def splitCh (sep : Char) (l : List Char) : List (List Char) := splitChAux sep [] l

/-- Chapter-plan parser shared by `scaffold_from_meta` and
`autonomous_generation` in core.py: newline-delimited when the input
contains a newline, else comma-delimited; entries whose strip is empty
are skipped; every kept entry is passed through `clean_text`. -/
def parseChapters (toc : List Char) : List (List Char) :=
  if hasChar '\n' toc then
    ((splitlines toc).filter fun x => !(pstrip x).isEmpty).map clean_text
  else
    ((splitCh ',' toc).filter fun x => !(pstrip x).isEmpty).map clean_text

/-- Default four-chapter skeleton substituted by `scaffold_from_meta`
when the parsed chapter list is empty. -/
def defaultChapters : List (List Char) :=
  ["Introduction".data, "Chapter 1".data, "Chapter 2".data, "Conclusion".data]

/-- Chapter plan used by `scaffold_from_meta`: the parsed list, or the
default skeleton when it is empty. -/
def scaffoldChapters (toc : List Char) : List (List Char) :=
  let cs := parseChapters toc
  if cs = [] then defaultChapters else cs

/-- Python `enumerate(xs, n)`. -/
def enumFrom (n : Nat) : List α → List (Nat × α)
  | [] => []
  | a :: t => (n, a) :: enumFrom (n + 1) t

/-- The decimal digit character for `m` (defined for `m < 10`). -/
def digitChar (m : Nat) : Char := "0123456789".data.getD m '0'

/-- Decimal digit accumulator for rendering a natural number the way a
Python f-string renders an int. -/
def natDigitsAux : Nat → Nat → List Char → List Char
  | 0, _, acc => acc
  | fuel + 1, n, acc =>
    let d := digitChar (n % 10)
    if n < 10 then d :: acc else natDigitsAux fuel (n / 10) (d :: acc)

/-- Decimal rendering of a natural number (Python `f"{i}"`). -/
def natDigits (n : Nat) : List Char := natDigitsAux (n + 1) n []

/-- Decimal digit test. -/
def isDigitCh (c : Char) : Bool := '0' ≤ c && c ≤ '9'

/-- The level-2 Markdown heading `## {i}. {ch}` emitted for chapter `i`. -/
def chapHeading (i : Nat) (ch : List Char) : List Char :=
  "## ".data ++ natDigits i ++ ". ".data ++ ch

/-- The heading element `"\n\n## {i}. {ch}\n"` appended to `out` for each
chapter in core.py. -/
def headingElem (i : Nat) (ch : List Char) : List Char :=
  "\n\n".data ++ chapHeading i ch ++ "\n".data

/-- The numbered table-of-contents line `f"{i}. {ch}"`. -/
def tocLine (i : Nat) (ch : List Char) : List Char :=
  natDigits i ++ ". ".data ++ ch

/-- Python `sep.join(xs)`. -/
def joinSep (sep : List Char) : List (List Char) → List Char
  | [] => []
  | [x] => x
  | x :: y :: t => x ++ sep ++ joinSep sep (y :: t)

/-- TRAINING_DATA["Digital Marketing Strategy"]["introductions"]. -/
def tdIntros : List (List Char) :=
  ["This chapter will delve into the core principles of creating a successful digital marketing strategy. We will explore how to define your audience, set clear objectives, and choose the right channels to reach your goals.".data,
   "Building a digital marketing plan is the first step towards achieving online success. In this section, we'll cover the foundational elements of a robust strategy, from market research to performance measurement.".data,
   "A well-crafted digital marketing strategy acts as a roadmap for your business's online presence. This chapter will guide you through the process of creating a comprehensive plan that aligns with your business objectives.".data]

/-- TRAINING_DATA["Digital Marketing Strategy"]["core_concepts"]. -/
def tdConcepts : List (List Char) :=
  ["Understanding your target audience is paramount. Develop detailed buyer personas to represent your ideal customers. Consider their demographics, psychographics, pain points, and online behavior. This will inform every aspect of your strategy.".data,
   "Setting SMART (Specific, Measurable, Achievable, Relevant, Time-bound) goals is crucial for success. Instead of a vague goal like 'increase online sales,' aim for something like 'achieve a 15% increase in e-commerce revenue in the next quarter.'".data,
   "The marketing funnel (Awareness, Consideration, Conversion, Loyalty) is a key concept. Your strategy should include tactics for each stage to guide potential customers on their journey from discovery to purchase and beyond.".data]

/-- TRAINING_DATA["Digital Marketing Strategy"]["examples"]. -/
def tdExamples : List (List Char) :=
  ["For a local bakery, a good SMART goal would be: 'Increase online pre-orders for custom cakes by 25% within the next 6 months by running targeted Facebook ads and improving the website's SEO for local search terms.'".data,
   "A B2B software company might create a buyer persona named 'IT Manager Mike,' who is 35-45 years old, values efficiency and data security, and reads industry blogs and LinkedIn articles.".data]

/-- TRAINING_DATA["Digital Marketing Strategy"]["exercises"]. -/
def tdExercises : List (List Char) :=
  ["Draft one complete buyer persona for your business. Include their demographics, goals, challenges, and preferred communication channels.".data,
   "Define three SMART goals for your next marketing campaign.".data]

/-- TRAINING_DATA["Digital Marketing Strategy"]["takeaways"]. -/
def tdTakeaways : List (List Char) :=
  ["A successful digital marketing strategy is built on a deep understanding of your audience and clear, measurable goals.".data,
   "A multi-channel approach that integrates SEO, PPC, content, and email marketing is typically more effective than relying on a single tactic.".data]

/-- Oracle standing for Python's `random.choice` and `random.sample`
(core.py draws from them with no seed, so the draws are modelled as an
arbitrary external parameter and every theorem quantifies over it). -/
structure RandOracle where
  choice : List (List Char) → List Char
  sample : Nat → List (List Char) → List (List Char)

/-- The `out` elements appended for one chapter in the TRAINING_DATA
branch of `scaffold_from_meta` (core.py lines 126-137). -/
def tdBlock (o : RandOracle) (i : Nat) (ch : List Char) : List (List Char) :=
  [headingElem i ch, o.choice tdIntros, "\n".data] ++
  o.sample (min 3 tdConcepts.length) tdConcepts ++
  ["\n\n**Example:** ".data ++ o.choice tdExamples,
   "\n\n### Exercises\n".data] ++
  (o.sample (min 2 tdExercises.length) tdExercises).map
    (fun ex => "1. ".data ++ ex) ++
  ["\n\n### Key Takeaways\n".data, o.choice tdTakeaways]

/-- Document preamble shared by both generators: title line, optional
subtitle and description blocks, table-of-contents header. -/
def preElems (title subtitle description : List Char) : List (List Char) :=
  [("# ".data ++ title)] ++
  (if subtitle ≠ [] then [("\n**".data ++ subtitle ++ "**\n".data)] else []) ++
  (if description ≠ [] then [("\n> ".data ++ description ++ "\n".data)] else []) ++
  ["\n### Table of Contents\n".data]

/-- The full `out` list built by `scaffold_from_meta` (core.py): preamble,
numbered ToC lines, then per-chapter blocks — TRAINING_DATA blocks for the
known topic, else only the heading element (the generic filler of the
original EbookForgePro_final.py is elided to a comment in core.py). -/
def scaffoldOut (title subtitle description topic : List Char)
    (chapters : List (List Char)) (o : RandOracle) : List (List Char) :=
  preElems title subtitle description ++
  (enumFrom 1 chapters).map (fun p => tocLine p.1 p.2) ++
  (if topic = "Digital Marketing Strategy".data then
    (enumFrom 1 chapters).flatMap (fun p => tdBlock o p.1 p.2)
  else
    (enumFrom 1 chapters).map (fun p => headingElem p.1 p.2))

/-- Embedding of `scaffold_from_meta` from core.py: clean the metadata,
parse the chapter plan (default skeleton when empty), build the `out`
list, join with newlines and run `clean_text` over the whole document.
The `seed` argument is cleaned and truncated in the source but unused in
the elided generic branch, so it does not appear in the output. -/
def scaffold_from_meta (title subtitle toc description topic : List Char)
    (o : RandOracle) : List Char :=
  let title2 := clean_text (if title = [] then "Untitled".data else title)
  let subtitle2 := clean_text subtitle
  let description2 := clean_text description
  let chapters := scaffoldChapters toc
  clean_text (joinSep "\n".data
    (scaffoldOut title2 subtitle2 description2 topic chapters o))

/-- List-prefix test (Python `str.startswith`). -/
def startsWithL : List Char → List Char → Bool
  | [], _ => true
  | _ :: _, [] => false
  | a :: p, b :: l => a == b && startsWithL p l

/-- Substring test (Python `in` on strings). -/
def containsSub (pat : List Char) : List Char → Bool
  | [] => pat.isEmpty
  | c :: r => startsWithL pat (c :: r) || containsSub pat r

/-- Expander configuration after the `cfg.get(...)` defaulting in ai.py:
`mode` is the configured mode string, keys and base are the configured
credential strings (empty list models a missing/empty key), and
`llama_path_ok` models `model_path and os.path.exists(model_path)`. -/
structure ExpCfg where
  mode : List Char
  openai_api_key : List Char
  openai_base : List Char
  gemini_api_key : List Char
  llama_path_ok : Bool

/-- Network/runtime effects of ai.py, abstracted per provider: each
transport takes the request text and returns `Except.error` when the HTTP
call raises (`raise_for_status`, timeouts, JSON errors), or the extracted
content on success; `none` models a response shape whose `get` chain
falls back to its default. `llamaPkg` models `ensure_pkg` and `llamaRun`
the llama.cpp invocation. -/
structure Transports where
  openai : List Char → Except Unit (Option (List Char))
  gemini : List Char → Except Unit (Option (List Char))
  ollama : List Char → Except Unit (Option (List Char))
  llamaPkg : Except (List Char) Unit
  llamaRun : List Char → Except Unit (List Char)

/-- Embedding of `Expander._openai_like`: keyless non-local configuration
returns the input; otherwise the transport result is extracted (default:
the input) and cleaned. Transport failure propagates. -/
def openaiLike (cfg : ExpCfg) (tr : Transports) (m : List Char) :
    Except Unit (List Char) :=
  if cfg.openai_api_key = [] ∧ containsSub "127.0.0.1".data cfg.openai_base = false
  then .ok m
  else match tr.openai m with
    | .error e => .error e
    | .ok none => .ok (clean_text m)
    | .ok (some out) => .ok (clean_text out)

/-- Embedding of `Expander._gemini`: keyless returns the input; a failed
extraction (inner try/except) returns the input; success is cleaned. -/
def geminiCall (cfg : ExpCfg) (tr : Transports) (m : List Char) :
    Except Unit (List Char) :=
  if cfg.gemini_api_key = [] then .ok m
  else match tr.gemini m with
    | .error e => .error e
    | .ok none => .ok m
    | .ok (some t) => .ok (clean_text t)

/-- Embedding of `Expander._ollama`. -/
def ollamaCall (tr : Transports) (m : List Char) : Except Unit (List Char) :=
  match tr.ollama m with
  | .error e => .error e
  | .ok none => .ok (clean_text m)
  | .ok (some t) => .ok (clean_text t)

/-- Embedding of `Expander._llama_cpp`: missing model path and package
installation failure return error strings (not exceptions); a failing
model invocation raises. -/
def llamaCppCall (cfg : ExpCfg) (tr : Transports) (m : List Char) :
    Except Unit (List Char) :=
  if cfg.llama_path_ok = false then
    .ok ("Error: Llama.cpp model path not found or not specified. Please configure it in the APIs tab.".data)
  else match tr.llamaPkg with
    | .error e =>
      .ok ("Error: Failed to install or import llama-cpp-python. Please install it with 'pip install ebookforgepro[local_llm]'. Details: ".data ++ e)
    | .ok _ => match tr.llamaRun m with
      | .error e2 => .error e2
      | .ok content => .ok (clean_text content)

/-- The placeholder returned by offline mode for autonomous prompts. -/
def offlinePlaceholder : List Char :=
  "## Chapter Content\n\nOffline mode cannot generate new content. Please select an AI provider in the APIs tab.".data

/-- Embedding of `Expander.expand` from ai.py: dispatch on the mode, with
a try/except around the provider branches that swallows every exception
and falls back to returning the input; an unmatched mode falls through to
`return manuscript` as well. -/
def Expander.expand (cfg : ExpCfg) (tr : Transports) (m : List Char) : List Char :=
  let res : Except Unit (List Char) :=
    if cfg.mode = "offline".data then
      .ok (if containsSub "You are an expert author".data m then offlinePlaceholder else m)
    else if cfg.mode = "openai".data then openaiLike cfg tr m
    else if cfg.mode = "gemini".data then geminiCall cfg tr m
    else if cfg.mode = "local".data then ollamaCall tr m
    else if cfg.mode = "llama.cpp".data then llamaCppCall cfg tr m
    else .ok m
  match res with
  | .ok s => s
  | .error _ => m

/-- The per-chapter prompt built by `autonomous_generation`. -/
def chapterPrompt (title fullToc ch : List Char) : List Char :=
  "You are an expert author writing a chapter for a book.\n\nBook Title: ".data ++
  title ++ "\nFull ToC:\n".data ++ fullToc ++
  "\n\nYou are writing the chapter: \"".data ++ ch ++
  "\".\n\nWrite the full content for this chapter, starting with a Level 2 Markdown heading (`## ".data ++
  ch ++ "`).".data

/-- The error document returned by `autonomous_generation` when the
parsed table of contents is empty. -/
def emptyTocError : List Char := "# Error: Table of Contents is empty.".data

/-- Embedding of `autonomous_generation` from core.py, parametrized by
the expander function used for each chapter prompt. -/
def autonomousWith (expandF : List Char → List Char)
    (title subtitle toc description : List Char) : List Char :=
  let title2 := clean_text (if title = [] then "Untitled".data else title)
  let subtitle2 := clean_text subtitle
  let description2 := clean_text description
  let chapters := parseChapters toc
  if chapters = [] then emptyTocError
  else
    let fullToc := joinSep "\n".data
      ((enumFrom 1 chapters).map fun p => tocLine p.1 p.2)
    let out := preElems title2 subtitle2 description2 ++ [fullToc] ++
      (enumFrom 1 chapters).map
        (fun p => "\n\n".data ++ expandF (chapterPrompt title2 fullToc p.2))
    clean_text (joinSep "\n".data out)

/-- Embedding of `autonomous_generation(title, subtitle, toc, description,
expander_cfg)` with the default `expander=None` path: an `Expander` is
built from the configuration and its `expand` is called per chapter. -/
def autonomous_generation (title subtitle toc description : List Char)
    (cfg : ExpCfg) (tr : Transports) : List Char :=
  autonomousWith (Expander.expand cfg tr) title subtitle toc description

/-- Characters kept by the first substitution of `slugify`
(`[^A-Za-z0-9\-_ \.]` is removed). -/
def isSlugKeep (c : Char) : Bool :=
  ('A' ≤ c && c ≤ 'Z') || ('a' ≤ c && c ≤ 'z') || ('0' ≤ c && c ≤ '9') ||
  c == '-' || c == '_' || c == ' ' || c == '.'

/-- Scanner for `re.sub(r"\s+", "_", s)`: every maximal whitespace run
becomes a single underscore. -/
def wsToUnd (inRun : Bool) : List Char → List Char
  | [] => []
  | c :: r =>
    if pyWS c then
      if inRun then wsToUnd true r else '_' :: wsToUnd true r
    else c :: wsToUnd false r

/-- Python `s.strip("_")`. -/
def stripUnd (l : List Char) : List Char :=
  ((l.dropWhile fun c => c == '_').reverse.dropWhile fun c => c == '_').reverse

/-- Embedding of `slugify` from core.py: drop unsafe characters, turn
whitespace runs into underscores, strip underscores, fall back to
"ebook" when empty. -/
def slugify (s : List Char) : List Char :=
  let s1 := s.filter isSlugKeep
  let s2 := stripUnd (wsToUnd false s1)
  if s2 = [] then "ebook".data else s2

/-- Characters allowed in a slug result. -/
def isSlugChar (c : Char) : Bool :=
  ('A' ≤ c && c ≤ 'Z') || ('a' ≤ c && c ≤ 'z') || ('0' ≤ c && c ≤ '9') ||
  c == '-' || c == '_' || c == '.'

/-- Variable lookup in a template variable binding list (Python dict). -/
def lookupVar (name : List Char) : List (List Char × List Char) → Option (List Char)
  | [] => none
  | (k, v) :: t => if k = name then some v else lookupVar name t

/-- Modelled from the spec: the repository sources contain no Template
Engine implementation (spec section 4.3 describes `apply` but no such
function exists under src/), so placeholder substitution is modelled
from the spec's words: each `{name}` occurrence is replaced by the bound
value and unmatched placeholders are left verbatim, with no error.  The
scanner state holds the characters read since an opening brace. -/
def applyTemplateAux (vars : List (List Char × List Char))
    (st : Option (List Char)) : List Char → List Char
  | [] => match st with
    | none => []
    | some acc => '{' :: acc.reverse
  | c :: r => match st with
    | none =>
      if c = '{' then applyTemplateAux vars (some []) r
      else c :: applyTemplateAux vars none r
    | some acc =>
      if c = '}' then
        match lookupVar acc.reverse vars with
        | some v => v ++ applyTemplateAux vars none r
        | none => '{' :: (acc.reverse ++ '}' :: applyTemplateAux vars none r)
      else applyTemplateAux vars (some (c :: acc)) r

/-- Modelled from the spec: `apply(body, variables)` of the Template
Engine (spec section 4.3). -/
def applyTemplate (body : List Char) (vars : List (List Char × List Char)) :
    List Char :=
  applyTemplateAux vars none body

/-- Concatenation of heading/followup pairs: the assembled document body
is a sequence of headings each followed by its chapter material. -/
def chainList : List (List Char × List Char) → List Char
  | [] => []
  | (h, v) :: rest => h ++ v ++ chainList rest

/-- The given anchor strings occur in the document in order, each at a
strictly later position than the previous one. -/
def OccursInOrder (doc : List Char) : List (List Char) → Prop
  | [] => True
  | h :: hs => ∃ u rest, doc = u ++ h ++ rest ∧ OccursInOrder rest hs

/-- Chain decomposition: the document is some prefix followed by each
heading in turn, every heading followed by material starting with a
newline. -/
def GoodChain (doc : List Char) (hs : List (List Char)) : Prop :=
  ∃ u pairs, doc = u ++ chainList pairs ∧ pairs.map Prod.fst = hs ∧
    ∀ pr ∈ pairs, ∃ t, pr.2 = '\n' :: t

/-- Chain decomposition without the newline condition on the material
after each heading (the shape that remains after the final strip). -/
def WeakChain (doc : List Char) (hs : List (List Char)) : Prop :=
  ∃ u pairs, doc = u ++ chainList pairs ∧ pairs.map Prod.fst = hs

/-- Output invariant of the default-options text normalizer: no double
hyphen, no em-dash, no curly quotes, no tab/CR/FF/VT, no triple newline,
no space/tab pair, stripped at both ends. -/
structure NormalText (t : List Char) : Prop where
  ndh : hasPair isHy t = false
  nem : hasChar emDash t = false
  nldq : hasChar ldq t = false
  nrdq : hasChar rdq t = false
  nrsq : hasChar rsq t = false
  nlsq : hasChar lsq t = false
  ntrfv : hasAny isTRFV t = false
  nnn : hasTriple isNL t = false
  nsp : hasPair isSP t = false
  nls : lstrip t = t
  nrs : rstrip t = t

/-- Properties of a chapter title as produced by the chapter-plan parser
(or the default skeleton): nonempty, newline-free, normalized. -/
structure HeadOK (ch : List Char) : Prop where
  ne : ch ≠ []
  nonl : hasChar '\n' ch = false
  norm : NormalText ch

/-- Properties of an emitted chapter heading that let it pass intact
through every stage of the text normalizer: it starts with a hash mark,
contains none of the rewritten patterns, and ends in a non-whitespace
character. -/
structure HeadingOK (h : List Char) : Prop where
  hd : ∃ t, h = '#' :: t
  ndh : hasPair isHy h = false
  nsp : hasPair isSP h = false
  nonl : hasAny isNL h = false
  nem : hasChar emDash h = false
  nldq : hasChar ldq h = false
  nrdq : hasChar rdq h = false
  nrsq : hasChar rsq h = false
  nlsq : hasChar lsq h = false
  ntrfv : hasAny isTRFV h = false
  lastSafe : headSafe pyWS h.reverse = true
  ne : h ≠ []

/-- First two characters are both newlines. -/
def headNL2 : List Char → Bool
  | a :: b :: _ => isNL a && isNL b
  | _ => false

/-- Heading/tail pairs fit for normalizer transport: each heading is
protected and each tail starts with a newline. -/
def PairsOK (pairs : List (List Char × List Char)) : Prop :=
  ∀ pr ∈ pairs, HeadingOK pr.1 ∧ ∃ t, pr.2 = '\n' :: t

/-- Transform the tail of every pair. -/
def mapV (f : List Char → List Char) (pairs : List (List Char × List Char)) :
    List (List Char × List Char) :=
  pairs.map fun pr => (pr.1, f pr.2)

/-- Scanner for Python `str.split()` with no arguments: split on runs of
whitespace, discarding empty fields. -/
def pySplitAux (cur : List Char) : List Char → List (List Char)
  | [] => if cur = [] then [] else [cur.reverse]
  | c :: r =>
    if pyWS c then
      if cur = [] then pySplitAux [] r else cur.reverse :: pySplitAux [] r
    else pySplitAux (c :: cur) r

/-- Python `s.split()`. -/
def pySplit (l : List Char) : List (List Char) := pySplitAux [] l

/-- Python `len(s.split())`: the number of whitespace-delimited words. -/
def wordCount (l : List Char) : Nat := (pySplit l).length

/-- Word-level model of `textwrap.fill(s, width=92)`: the wrapper
re-flows whitespace (collapsing runs and inserting line breaks between
words) but keeps the whitespace-delimited word sequence unchanged, which
is the only aspect the word-count loop of EbookForgePro_final.py
observes; it is modelled as joining the words with single spaces. -/
def fillWrap (s : List Char) : List Char := joinSep " ".data (pySplit s)

/-- The constant filler paragraph of the generic strategy
(EbookForgePro_final.py lines 183-187). -/
def fillerPara : List Char :=
  fillWrap ("Add examples, pitfalls, best practices, and a short scenario. ".data ++
    "End with ROI metrics and a week-one action plan.".data)

/-- The initial paragraph of a chapter in the generic strategy
(EbookForgePro_final.py lines 174-178): chapter title, fixed text, then
the first 300 characters of the cleaned seed. -/
def chapterPara (ch seed : List Char) : List Char :=
  fillWrap (ch ++
    " presents a practical strategy with step-by-step actions and measurable outcomes. ".data ++
    "Write clearly and prioritize momentum. ".data ++
    (((clean_text seed).take 2000).take 300))

/-- The while loop of EbookForgePro_final.py lines 179-187: keep
appending the current paragraph while the word count of the would-be
chunk (including the next paragraph) is still below the target; after the
first append the paragraph is always `fillerPara`.  Structured with a
fuel argument for structural recursion; `buildChunk` supplies enough
fuel for the loop to always exit through its condition. -/
def chunkLoopF (target : Nat) : Nat → List (List Char) → List Char → List (List Char)
  | 0, chunk, _ => chunk
  | fuel + 1, chunk, para =>
    if wordCount (joinSep " ".data (chunk ++ [para])) < target then
      chunkLoopF target fuel (chunk ++ [para]) fillerPara
    else chunk

/-- The padding block emitted for one chapter by the generic strategy
(`chunk` at EbookForgePro_final.py line 188). -/
def buildChunk (target : Nat) (para1 : List Char) : List (List Char) :=
  chunkLoopF target (target + 1) [] para1

theorem hasPair_cons_of_not (p : Char → Bool) (a : Char) (l : List Char)
    (h : p a = false) : hasPair p (a :: l) = hasPair p l := by
  cases l with
  | nil => simp [hasPair]
  | cons b t => simp [hasPair, h]

theorem hasPair_cons_headSafe (p : Char → Bool) (a : Char) (l : List Char)
    (h : headSafe p l = true) : hasPair p (a :: l) = hasPair p l := by
  cases l with
  | nil => simp [hasPair]
  | cons b t =>
    simp only [headSafe, Bool.not_eq_true'] at h
    simp [hasPair, h]

theorem hasPair_tail (p : Char → Bool) (a : Char) (l : List Char)
    (h : hasPair p (a :: l) = false) : hasPair p l = false := by
  cases l with
  | nil => simp [hasPair]
  | cons b t =>
    simp only [hasPair, Bool.or_eq_false_iff] at h
    exact h.2

theorem hasPair_append_right (p : Char → Bool) (x y : List Char)
    (h : hasPair p (x ++ y) = false) : hasPair p y = false := by
  induction x with
  | nil => exact h
  | cons a t ih => exact ih (hasPair_tail p a (t ++ y) h)

theorem hasPair_append_left (p : Char → Bool) (x y : List Char)
    (h : hasPair p (x ++ y) = false) : hasPair p x = false := by
  induction x with
  | nil => simp [hasPair]
  | cons a t ih =>
    cases t with
    | nil => simp [hasPair]
    | cons b r =>
      simp only [List.cons_append, hasPair, Bool.or_eq_false_iff] at h ⊢
      exact ⟨h.1, ih h.2⟩

theorem hasTriple_cons_of_not (p : Char → Bool) (a : Char) (l : List Char)
    (h : p a = false) : hasTriple p (a :: l) = hasTriple p l := by
  cases l with
  | nil => simp [hasTriple]
  | cons b t =>
    cases t with
    | nil => simp [hasTriple]
    | cons c r => simp [hasTriple, h]

theorem hasTriple_tail (p : Char → Bool) (a : Char) (l : List Char)
    (h : hasTriple p (a :: l) = false) : hasTriple p l = false := by
  cases l with
  | nil => simp [hasTriple]
  | cons b t =>
    cases t with
    | nil => simp [hasTriple]
    | cons c r =>
      simp only [hasTriple, Bool.or_eq_false_iff] at h
      exact h.2

theorem hasTriple_append_right (p : Char → Bool) (x y : List Char)
    (h : hasTriple p (x ++ y) = false) : hasTriple p y = false := by
  induction x with
  | nil => exact h
  | cons a t ih => exact ih (hasTriple_tail p a (t ++ y) h)

theorem hasTriple_append_left (p : Char → Bool) (x y : List Char)
    (h : hasTriple p (x ++ y) = false) : hasTriple p x = false := by
  induction x with
  | nil => simp [hasTriple]
  | cons a t ih =>
    cases t with
    | nil => simp [hasTriple]
    | cons b r =>
      cases r with
      | nil => simp [hasTriple]
      | cons c s =>
        simp only [List.cons_append, hasTriple, Bool.or_eq_false_iff] at h ⊢
        exact ⟨h.1, ih h.2⟩

theorem hasChar_eq_false_iff (c : Char) (l : List Char) :
    hasChar c l = false ↔ ∀ x ∈ l, x ≠ c := by
  simp [hasChar, List.any_eq_false]

theorem hasAny_eq_false_iff (p : Char → Bool) (l : List Char) :
    hasAny p l = false ↔ ∀ x ∈ l, p x = false := by
  simp [hasAny, List.any_eq_false]

theorem hasChar_append (c : Char) (x y : List Char) :
    hasChar c (x ++ y) = (hasChar c x || hasChar c y) := by
  simp [hasChar]

theorem hasAny_append (p : Char → Bool) (x y : List Char) :
    hasAny p (x ++ y) = (hasAny p x || hasAny p y) := by
  simp [hasAny]

theorem hasPair_map_inv (p : Char → Bool) (f : Char → Char)
    (hf : ∀ c, p (f c) = p c) (l : List Char) :
    hasPair p (l.map f) = hasPair p l := by
  induction l with
  | nil => simp [hasPair]
  | cons a t ih =>
    cases t with
    | nil => simp [hasPair]
    | cons b r =>
      simp only [List.map_cons, hasPair, hf] at ih ⊢
      rw [ih]

theorem hasTriple_map_inv (p : Char → Bool) (f : Char → Char)
    (hf : ∀ c, p (f c) = p c) (l : List Char) :
    hasTriple p (l.map f) = hasTriple p l := by
  induction l with
  | nil => simp [hasTriple]
  | cons a t ih =>
    cases t with
    | nil => simp [hasTriple]
    | cons b r =>
      cases r with
      | nil => simp [hasTriple]
      | cons c s =>
        simp only [List.map_cons, hasTriple, hf] at ih ⊢
        rw [ih]

theorem hasChar_map_none (c : Char) (f : Char → Char) (l : List Char)
    (hl : hasChar c l = false) (hf : ∀ x, f x = c → x = c) :
    hasChar c (l.map f) = false := by
  rw [hasChar_eq_false_iff] at hl ⊢
  intro x hx
  rcases List.mem_map.mp hx with ⟨a, ha, rfl⟩
  intro hc
  exact hl a ha (hf a hc)

theorem map_eq_self_of (f : Char → Char) (l : List Char)
    (h : ∀ x ∈ l, f x = x) : l.map f = l := by
  induction l with
  | nil => rfl
  | cons a t ih =>
    simp only [List.map_cons]
    rw [h a (by simp), ih fun x hx => h x (by simp [hx])]

theorem hasAny_map_none (p : Char → Bool) (f : Char → Char) (l : List Char)
    (hl : hasAny p l = false) (hf : ∀ x, p (f x) = true → p x = true) :
    hasAny p (l.map f) = false := by
  rw [hasAny_eq_false_iff] at hl ⊢
  intro x hx
  rcases List.mem_map.mp hx with ⟨a, ha, rfl⟩
  cases hpa : p (f a) with
  | false => rfl
  | true => exact absurd (hf a hpa) (by simp [hl a ha])

theorem repC_id (a b : Char) (l : List Char) (h : hasChar a l = false) :
    repC a b l = l := by
  rw [hasChar_eq_false_iff] at h
  exact map_eq_self_of _ l fun x hx => by simp [h x hx]

theorem repC_establishes (a b : Char) (l : List Char) (hab : a ≠ b) :
    hasChar a (repC a b l) = false := by
  rw [hasChar_eq_false_iff]
  intro x hx
  rcases List.mem_map.mp hx with ⟨c, _, rfl⟩
  by_cases hc : c = a <;> simp [hc, Ne.symm hab, hc]

theorem mapTRFV_id (l : List Char) (h : hasAny isTRFV l = false) :
    mapTRFV l = l := by
  rw [hasAny_eq_false_iff] at h
  exact map_eq_self_of _ l fun x hx => by simp [h x hx]

theorem mapTRFV_establishes (l : List Char) :
    hasAny isTRFV (mapTRFV l) = false := by
  rw [hasAny_eq_false_iff]
  intro x hx
  rcases List.mem_map.mp hx with ⟨c, _, rfl⟩
  by_cases hc : isTRFV c = true
  · rw [if_pos hc]; decide
  · rw [if_neg (by simp [hc])]
    simpa using hc

theorem replaceDH_cons2 (a b : Char) (rest : List Char) :
    replaceDH (a :: b :: rest) =
      if a = '-' ∧ b = '-' then ',' :: replaceDH rest
      else a :: replaceDH (b :: rest) := rfl

theorem replaceDH_cons_of_ne (c : Char) (l : List Char) (h : c ≠ '-') :
    replaceDH (c :: l) = c :: replaceDH l := by
  cases l with
  | nil => simp [replaceDH]
  | cons d r =>
    rw [replaceDH_cons2, if_neg]
    rintro ⟨rfl, -⟩
    exact h rfl

theorem replaceDH_establishes (l : List Char) :
    hasPair isHy (replaceDH l) = false := by
  induction l using replaceDH.induct with
  | case1 => simp [replaceDH, hasPair]
  | case2 c => simp [replaceDH, hasPair]
  | case3 a b rest hab ih =>
    obtain ⟨rfl, rfl⟩ := hab
    rw [replaceDH_cons2, if_pos ⟨rfl, rfl⟩]
    rw [hasPair_cons_of_not isHy ',' _ (by decide)]
    exact ih
  | case4 a b rest hab ih =>
    rw [replaceDH_cons2, if_neg hab]
    by_cases hb : b = '-'
    · subst hb
      have ha : a ≠ '-' := fun h => hab ⟨h, rfl⟩
      cases rest with
      | nil =>
        simp [replaceDH, hasPair, isHy, ha]
      | cons d r =>
        rw [hasPair_cons_of_not isHy a _ (by simp [isHy, ha])]
        exact ih
    · rw [hasPair_cons_headSafe isHy a _ (by
        rw [replaceDH_cons_of_ne b rest hb]
        simp [headSafe, isHy, hb])]
      exact ih

theorem replaceDH_id (l : List Char) (h : hasPair isHy l = false) :
    replaceDH l = l := by
  induction l using replaceDH.induct with
  | case1 => simp [replaceDH]
  | case2 c => simp [replaceDH]
  | case3 a b rest hab ih =>
    obtain ⟨rfl, rfl⟩ := hab
    simp [hasPair, isHy] at h
  | case4 a b rest hab ih =>
    rw [replaceDH_cons2, if_neg hab]
    rw [ih (hasPair_tail isHy a _ h)]

theorem replaceDH_append (x y : List Char) (hy : headSafe isHy y = true) :
    replaceDH (x ++ y) = replaceDH x ++ replaceDH y := by
  induction x using replaceDH.induct with
  | case1 => simp [replaceDH]
  | case2 c =>
    cases y with
    | nil => simp [replaceDH]
    | cons d r =>
      simp only [headSafe, Bool.not_eq_true'] at hy
      simp only [List.singleton_append]
      rw [replaceDH_cons2, if_neg (by rintro ⟨-, rfl⟩; simp [isHy] at hy)]
      simp [replaceDH]
  | case3 a b rest hab ih =>
    obtain ⟨rfl, rfl⟩ := hab
    simp only [List.cons_append]
    rw [replaceDH_cons2, if_pos ⟨rfl, rfl⟩, replaceDH_cons2, if_pos ⟨rfl, rfl⟩]
    simp [ih]
  | case4 a b rest hab ih =>
    simp only [List.cons_append]
    rw [replaceDH_cons2, if_neg hab, replaceDH_cons2, if_neg hab]
    simp only [List.cons_append, List.cons.injEq, true_and]
    exact ih

theorem hasTriple_cons_eq (p : Char → Bool) (a : Char) (L : List Char) :
    hasTriple p (a :: L) =
      ((match L with | b :: c :: _ => p a && p b && p c | _ => false) ||
        hasTriple p L) := by
  cases L with
  | nil => simp [hasTriple]
  | cons b t =>
    cases t with
    | nil => simp [hasTriple]
    | cons c r => simp [hasTriple]

theorem hasTriple_break (p : Char → Bool) (c : Char) (y : List Char)
    (hc : p c = false) (hy : hasTriple p y = false) :
    ∀ x, hasTriple p x = false → hasTriple p (x ++ c :: y) = false := by
  intro x
  induction x with
  | nil =>
    intro _
    rw [List.nil_append, hasTriple_cons_of_not p c y hc]
    exact hy
  | cons a t ih =>
    intro hx
    have ht : hasTriple p (t ++ c :: y) = false :=
      ih (hasTriple_tail p a t hx)
    rw [List.cons_append, hasTriple_cons_eq, ht, Bool.or_false]
    cases t with
    | nil => cases y <;> simp [hc]
    | cons b s =>
      cases s with
      | nil => simp [hc]
      | cons d r =>
        rw [hasTriple_cons_eq] at hx
        simp only [List.cons_append]
        exact (Bool.or_eq_false_iff.mp hx).1

theorem cNL_zero_cons (c : Char) (r : List Char) :
    cNL 0 (c :: r) = c :: cNL (if isNL c then 1 else 0) r := by
  by_cases h : isNL c = true <;> simp [cNL, h]

theorem cNL_any_pres (p : Char → Bool) :
    ∀ (l : List Char) (k : Nat), hasAny p l = false →
      hasAny p (cNL k l) = false := by
  intro l
  induction l with
  | nil => intro k _; simp [cNL, hasAny]
  | cons c r ih =>
    intro k h
    have hc : p c = false := by
      simp only [hasAny, List.any_cons, Bool.or_eq_false_iff] at h
      exact h.1
    have hr : hasAny p r = false := by
      simp only [hasAny, List.any_cons, Bool.or_eq_false_iff] at h
      exact h.2
    by_cases hnl : isNL c = true
    · by_cases hk : 2 ≤ k
      · simp only [cNL, hnl, if_pos hk, if_true]
        exact ih 2 hr
      · simp only [cNL, hnl, if_neg hk, if_true, hasAny, List.any_cons, hc,
          Bool.false_or]
        exact ih (k + 1) hr
    · simp only [cNL, hnl, Bool.false_eq_true, if_false, hasAny,
        List.any_cons, hc, Bool.false_or]
      exact ih 0 hr

theorem cNL_pair_pres (p : Char → Bool) (hnlp : p '\n' = false) :
    ∀ (l : List Char) (k : Nat), hasPair p l = false →
      hasPair p (cNL k l) = false := by
  intro l
  induction l with
  | nil => intro k _; simp [cNL, hasPair]
  | cons c r ih =>
    intro k h
    have hr : hasPair p r = false := hasPair_tail p c r h
    by_cases hnl : isNL c = true
    · have hceq : c = '\n' := by
        simpa [isNL] using hnl
      by_cases hk : 2 ≤ k
      · simp only [cNL, hnl, if_pos hk, if_true]
        exact ih 2 hr
      · simp only [cNL, hnl, if_neg hk, if_true]
        rw [hasPair_cons_of_not p c _ (hceq ▸ hnlp)]
        exact ih (k + 1) hr
    · simp only [cNL, hnl, Bool.false_eq_true, if_false]
      by_cases hpc : p c = true
      · have hsafe : headSafe p (cNL 0 r) = true := by
          cases r with
          | nil => simp [cNL, headSafe]
          | cons d r2 =>
            have hpd : p d = false := by
              simp only [hasPair, hpc, Bool.true_and, Bool.or_eq_false_iff] at h
              exact h.1
            rw [cNL_zero_cons]
            simp [headSafe, hpd]
        rw [hasPair_cons_headSafe p c _ hsafe]
        exact ih 0 hr
      · rw [hasPair_cons_of_not p c _ (by simpa using hpc)]
        exact ih 0 hr

theorem cNL_establishes_aux :
    ∀ (l : List Char) (k : Nat), k ≤ 2 →
      hasTriple isNL (List.replicate k '\n' ++ cNL k l) = false := by
  intro l
  induction l with
  | nil =>
    intro k hk
    interval_cases k <;> decide
  | cons c r ih =>
    intro k hk
    by_cases hnl : isNL c = true
    · have hceq : c = '\n' := by simpa [isNL] using hnl
      by_cases h2 : 2 ≤ k
      · have hk2 : k = 2 := le_antisymm hk h2
        subst hk2
        simp only [cNL, hnl, if_pos h2, if_true]
        exact ih 2 (by omega)
      · simp only [cNL, hnl, if_neg h2, if_true]
        have : List.replicate k '\n' ++ c :: cNL (k + 1) r =
            List.replicate (k + 1) '\n' ++ cNL (k + 1) r := by
          rw [List.replicate_succ']
          simp [hceq]
        rw [this]
        exact ih (k + 1) (by omega)
    · simp only [cNL, hnl, Bool.false_eq_true, if_false]
      refine hasTriple_break isNL c (cNL 0 r) (by simpa using hnl)
        (ih 0 (by omega)) (List.replicate k '\n') ?_
      have : hasTriple isNL (List.replicate k '\n') = false := by
        interval_cases k <;> decide
      exact this

theorem cNL_establishes (l : List Char) :
    hasTriple isNL (cNL 0 l) = false := by
  have := cNL_establishes_aux l 0 (by omega)
  simpa using this

theorem cNL_id_aux :
    ∀ (l : List Char) (k : Nat), k ≤ 2 →
      hasTriple isNL (List.replicate k '\n' ++ l) = false → cNL k l = l := by
  intro l
  induction l with
  | nil => intro k _ _; simp [cNL]
  | cons c r ih =>
    intro k hk h
    by_cases hnl : isNL c = true
    · have hceq : c = '\n' := by simpa [isNL] using hnl
      by_cases h2 : 2 ≤ k
      · exfalso
        have hk2 : k = 2 := le_antisymm hk h2
        subst hk2
        subst hceq
        simp [hasTriple, isNL, List.replicate] at h
      · simp only [cNL, hnl, if_neg h2, if_true]
        have harr : List.replicate k '\n' ++ c :: r =
            List.replicate (k + 1) '\n' ++ r := by
          rw [List.replicate_succ']
          simp [hceq]
        rw [ih (k + 1) (by omega) (by rw [← harr]; exact h)]
    · simp only [cNL, hnl, Bool.false_eq_true, if_false]
      have hr : hasTriple isNL r = false :=
        hasTriple_tail isNL c r
          (hasTriple_append_right isNL (List.replicate k '\n') (c :: r) h)
      rw [ih 0 (by omega) (by simpa using hr)]

theorem cNL_id (l : List Char) (h : hasTriple isNL l = false) :
    cNL 0 l = l :=
  cNL_id_aux l 0 (by omega) (by simpa using h)

theorem cNL_append (y : List Char) (hy : headSafe isNL y = true) :
    ∀ (x : List Char) (k : Nat), cNL k (x ++ y) = cNL k x ++ cNL 0 y := by
  intro x
  induction x with
  | nil =>
    intro k
    cases y with
    | nil => simp [cNL]
    | cons c r =>
      simp only [headSafe, Bool.not_eq_true'] at hy
      simp [cNL, hy]
  | cons c t ih =>
    intro k
    by_cases hnl : isNL c = true
    · by_cases hk : 2 ≤ k
      · simp only [List.cons_append, cNL, hnl, if_pos hk, if_true]
        exact ih 2
      · simp only [List.cons_append, cNL, hnl, if_neg hk, if_true,
          List.append_eq, ih (k + 1)]
    · simp only [List.cons_append, cNL, hnl, Bool.false_eq_true, if_false,
        List.append_eq, ih 0]

theorem cNL_nlfree_front (h : List Char) (hh : hasAny isNL h = false) :
    ∀ v, cNL 0 (h ++ v) = h ++ cNL 0 v := by
  induction h with
  | nil => intro v; simp
  | cons c t ih =>
    intro v
    have hc : isNL c = false := by
      simp only [hasAny, List.any_cons, Bool.or_eq_false_iff] at hh
      exact hh.1
    have ht : hasAny isNL t = false := by
      simp only [hasAny, List.any_cons, Bool.or_eq_false_iff] at hh
      exact hh.2
    simp only [List.cons_append, cNL, hc, Bool.false_eq_true, if_false,
      List.append_eq]
    rw [ih ht v]

theorem cSP_cons_clean (c : Char) (r : List Char) :
    cSP .clean (c :: r) =
      if isSP c then cSP (.pending c) r else c :: cSP .clean r := rfl

theorem cSP_cons_pending (p c : Char) (r : List Char) :
    cSP (.pending p) (c :: r) =
      if isSP c then ' ' :: cSP .skipping r else p :: c :: cSP .clean r := rfl

theorem cSP_cons_skipping (c : Char) (r : List Char) :
    cSP .skipping (c :: r) =
      if isSP c then cSP .skipping r else c :: cSP .clean r := rfl

theorem isNL_of_isSP (c : Char) (h : isSP c = true) : isNL c = false := by
  simp only [isSP, Bool.or_eq_true, beq_iff_eq] at h
  rcases h with rfl | rfl <;> decide

theorem cSP_skipping_headSafe (r : List Char) :
    headSafe isSP (cSP .skipping r) = true := by
  induction r with
  | nil => simp [cSP, headSafe]
  | cons c t ih =>
    rw [cSP_cons_skipping]
    by_cases h : isSP c = true
    · rw [if_pos h]; exact ih
    · rw [if_neg (by simp [h])]
      simp [headSafe, h]

theorem cSP_clean_headSafe (q : Char → Bool) (hq : q ' ' = false)
    (r : List Char) (hr : headSafe q r = true) :
    headSafe q (cSP .clean r) = true := by
  cases r with
  | nil => simp [cSP, headSafe]
  | cons d r2 =>
    simp only [headSafe, Bool.not_eq_true'] at hr
    rw [cSP_cons_clean]
    by_cases hd : isSP d = true
    · rw [if_pos hd]
      cases r2 with
      | nil => simp [cSP, headSafe, hr]
      | cons e r3 =>
        rw [cSP_cons_pending]
        by_cases he : isSP e = true
        · rw [if_pos he]; simp [headSafe, hq]
        · rw [if_neg (by simp [he])]; simp [headSafe, hr]
    · rw [if_neg (by simp [hd])]
      simp [headSafe, hr]

theorem cSP_establishes_all (r : List Char) :
    hasPair isSP (cSP .clean r) = false ∧
    (∀ p, hasPair isSP (cSP (.pending p) r) = false) ∧
    hasPair isSP (cSP .skipping r) = false := by
  induction r with
  | nil =>
    refine ⟨by simp [cSP, hasPair], fun p => by simp [cSP, hasPair], ?_⟩
    simp [cSP, hasPair]
  | cons c t ih =>
    obtain ⟨ihc, ihp, ihs⟩ := ih
    by_cases h : isSP c = true
    · refine ⟨?_, fun p => ?_, ?_⟩
      · rw [cSP_cons_clean, if_pos h]; exact ihp c
      · rw [cSP_cons_pending, if_pos h]
        rw [hasPair_cons_headSafe isSP ' ' _ (cSP_skipping_headSafe t)]
        exact ihs
      · rw [cSP_cons_skipping, if_pos h]; exact ihs
    · have hc : isSP c = false := by simpa using h
      refine ⟨?_, fun p => ?_, ?_⟩
      · rw [cSP_cons_clean, if_neg (by simp [hc])]
        rw [hasPair_cons_of_not isSP c _ hc]
        exact ihc
      · rw [cSP_cons_pending, if_neg (by simp [hc])]
        rw [hasPair_cons_headSafe isSP p _ (by simp [headSafe, hc])]
        rw [hasPair_cons_of_not isSP c _ hc]
        exact ihc
      · rw [cSP_cons_skipping, if_neg (by simp [hc])]
        rw [hasPair_cons_of_not isSP c _ hc]
        exact ihc

theorem cSP_id_all (r : List Char) :
    (hasPair isSP r = false → cSP .clean r = r) ∧
    (∀ p, isSP p = true → hasPair isSP (p :: r) = false →
      cSP (.pending p) r = p :: r) := by
  induction r with
  | nil => exact ⟨fun _ => rfl, fun p _ _ => rfl⟩
  | cons c t ih =>
    obtain ⟨ihc, ihp⟩ := ih
    constructor
    · intro h
      by_cases hc : isSP c = true
      · rw [cSP_cons_clean, if_pos hc]
        exact ihp c hc h
      · rw [cSP_cons_clean, if_neg (by simp [hc])]
        rw [ihc (hasPair_tail isSP c t h)]
    · intro p hp h
      by_cases hc : isSP c = true
      · exfalso
        simp [hasPair, hp, hc] at h
      · rw [cSP_cons_pending, if_neg (by simp [hc])]
        rw [ihc (hasPair_tail isSP c t (hasPair_tail isSP p (c :: t) h))]

theorem cSP_append (y : List Char) (hy : headSafe isSP y = true) :
    ∀ (x : List Char) (s : SPState), cSP s (x ++ y) = cSP s x ++ cSP .clean y := by
  intro x
  induction x with
  | nil =>
    intro s
    cases s with
    | clean => simp [show cSP SPState.clean ([] : List Char) = [] from rfl]
    | pending p =>
      cases y with
      | nil => rfl
      | cons c r =>
        simp only [headSafe, Bool.not_eq_true'] at hy
        simp only [List.nil_append, cSP_cons_pending, cSP_cons_clean, hy,
          Bool.false_eq_true, if_false]
        rfl
    | skipping =>
      cases y with
      | nil => rfl
      | cons c r =>
        simp only [headSafe, Bool.not_eq_true'] at hy
        simp only [List.nil_append, cSP_cons_skipping, cSP_cons_clean, hy,
          Bool.false_eq_true, if_false]
        rfl
  | cons c t ih =>
    intro s
    cases s with
    | clean =>
      rw [List.cons_append, cSP_cons_clean, cSP_cons_clean]
      by_cases hc : isSP c = true
      · rw [if_pos hc, if_pos hc, ih (.pending c)]
      · rw [if_neg (by simp [hc]), if_neg (by simp [hc]), ih .clean]
        simp
    | pending p =>
      rw [List.cons_append, cSP_cons_pending, cSP_cons_pending]
      by_cases hc : isSP c = true
      · rw [if_pos hc, if_pos hc, ih .skipping]
        simp
      · rw [if_neg (by simp [hc]), if_neg (by simp [hc]), ih .clean]
        simp
    | skipping =>
      rw [List.cons_append, cSP_cons_skipping, cSP_cons_skipping]
      by_cases hc : isSP c = true
      · rw [if_pos hc, if_pos hc, ih .skipping]
      · rw [if_neg (by simp [hc]), if_neg (by simp [hc]), ih .clean]
        simp

theorem cSP_pair_pres (q : Char → Bool) (hq : q ' ' = false) (r : List Char) :
    (hasPair q r = false → hasPair q (cSP .clean r) = false) ∧
    (∀ p, hasPair q (p :: r) = false → hasPair q (cSP (.pending p) r) = false) ∧
    (hasPair q r = false → hasPair q (cSP .skipping r) = false) := by
  induction r with
  | nil =>
    refine ⟨fun _ => by simp [cSP, hasPair], fun p _ => by simp [cSP, hasPair],
      fun _ => by simp [cSP, hasPair]⟩
  | cons c t ih =>
    obtain ⟨ihc, ihp, ihs⟩ := ih
    have key : ∀ h : hasPair q (c :: t) = false,
        hasPair q (c :: cSP .clean t) = false := by
      intro h
      by_cases hqc : q c = true
      · have hsafe : headSafe q t = true := by
          cases t with
          | nil => rfl
          | cons d t2 =>
            simp only [hasPair, hqc, Bool.true_and, Bool.or_eq_false_iff] at h
            simp [headSafe, h.1]
        rw [hasPair_cons_headSafe q c _ (cSP_clean_headSafe q hq t hsafe)]
        exact ihc (hasPair_tail q c t h)
      · rw [hasPair_cons_of_not q c _ (by simpa using hqc)]
        exact ihc (hasPair_tail q c t h)
    refine ⟨?_, fun p hp => ?_, ?_⟩
    · intro h
      by_cases hc : isSP c = true
      · rw [cSP_cons_clean, if_pos hc]
        exact ihp c h
      · rw [cSP_cons_clean, if_neg (by simp [hc])]
        exact key h
    · by_cases hc : isSP c = true
      · rw [cSP_cons_pending, if_pos hc]
        rw [hasPair_cons_of_not q ' ' _ hq]
        exact ihs (hasPair_tail q c t (hasPair_tail q p (c :: t) hp))
      · rw [cSP_cons_pending, if_neg (by simp [hc])]
        have h1 : hasPair q (c :: t) = false := hasPair_tail q p (c :: t) hp
        have h2 : hasPair q (c :: cSP .clean t) = false := key h1
        by_cases hqc : q c = true
        · have hqp : q p = false := by
            simp only [hasPair, Bool.or_eq_false_iff] at hp
            rcases Bool.and_eq_false_iff.mp hp.1 with h3 | h3
            · exact h3
            · simp [hqc] at h3
          rw [hasPair_cons_of_not q p _ hqp]
          exact h2
        · rw [hasPair_cons_headSafe q p _ (by simp [headSafe, hqc])]
          exact h2
    · intro h
      by_cases hc : isSP c = true
      · rw [cSP_cons_skipping, if_pos hc]
        exact ihs (hasPair_tail q c t h)
      · rw [cSP_cons_skipping, if_neg (by simp [hc])]
        exact key h

theorem cSP_any_pres (q : Char → Bool) (hq : q ' ' = false) :
    ∀ (l : List Char) (s : SPState),
      (match s with | .pending p => q p = false | _ => True) →
      hasAny q l = false → hasAny q (cSP s l) = false := by
  intro l
  induction l with
  | nil =>
    intro s hs _
    cases s with
    | clean => simp [cSP, hasAny]
    | pending p => simpa [cSP, hasAny] using hs
    | skipping => simp [cSP, hasAny]
  | cons c t ih =>
    intro s hs h
    have hc : q c = false := by
      simp only [hasAny, List.any_cons, Bool.or_eq_false_iff] at h
      exact h.1
    have ht : hasAny q t = false := by
      simp only [hasAny, List.any_cons, Bool.or_eq_false_iff] at h
      exact h.2
    cases s with
    | clean =>
      rw [cSP_cons_clean]
      by_cases hsp : isSP c = true
      · rw [if_pos hsp]; exact ih (.pending c) hc ht
      · rw [if_neg (by simp [hsp])]
        simp only [hasAny, List.any_cons, hc, Bool.false_or]
        exact ih .clean trivial ht
    | pending p =>
      rw [cSP_cons_pending]
      by_cases hsp : isSP c = true
      · rw [if_pos hsp]
        simp only [hasAny, List.any_cons, hq, Bool.false_or]
        exact ih .skipping trivial ht
      · rw [if_neg (by simp [hsp])]
        simp only [hasAny, List.any_cons, hc, Bool.false_or, hs]
        exact ih .clean trivial ht
    | skipping =>
      rw [cSP_cons_skipping]
      by_cases hsp : isSP c = true
      · rw [if_pos hsp]; exact ih .skipping trivial ht
      · rw [if_neg (by simp [hsp])]
        simp only [hasAny, List.any_cons, hc, Bool.false_or]
        exact ih .clean trivial ht

theorem headNL2_cSP_clean (r : List Char)
    (h : headNL2 (cSP .clean r) = true) : headNL2 r = true := by
  cases r with
  | nil => simp [cSP, headNL2] at h
  | cons d t =>
    by_cases hd : isSP d = true
    · exfalso
      rw [cSP_cons_clean, if_pos hd] at h
      cases t with
      | nil => simp [cSP, headNL2] at h
      | cons e t2 =>
        rw [cSP_cons_pending] at h
        by_cases he : isSP e = true
        · rw [if_pos he] at h
          cases hX : cSP SPState.skipping t2 with
          | nil => rw [hX] at h; simp [headNL2] at h
          | cons b tb =>
            rw [hX] at h
            simp only [headNL2, Bool.and_eq_true, isNL, beq_iff_eq] at h
            exact absurd h.1 (by decide)
        · rw [if_neg (by simp [he])] at h
          simp only [headNL2, Bool.and_eq_true] at h
          rw [isNL_of_isSP d hd] at h
          simp at h
    · rw [cSP_cons_clean, if_neg (by simp [hd])] at h
      cases t with
      | nil => simp [cSP, headNL2] at h
      | cons e t2 =>
        by_cases he : isSP e = true
        · exfalso
          rw [cSP_cons_clean, if_pos he] at h
          cases t2 with
          | nil => simp [cSP, headNL2, isNL_of_isSP e he] at h
          | cons f t3 =>
            rw [cSP_cons_pending] at h
            by_cases hf : isSP f = true
            · rw [if_pos hf] at h
              simp only [headNL2, Bool.and_eq_true, isNL, beq_iff_eq] at h
              exact absurd h.2 (by decide)
            · rw [if_neg (by simp [hf])] at h
              simp [headNL2, isNL_of_isSP e he] at h
        · rw [cSP_cons_clean, if_neg (by simp [he])] at h
          simpa [headNL2] using h

theorem headNL2_triple (c : Char) (r : List Char) (hc : isNL c = true)
    (h2 : headNL2 r = true) : hasTriple isNL (c :: r) = true := by
  cases r with
  | nil => simp [headNL2] at h2
  | cons a t =>
    cases t with
    | nil => simp [headNL2] at h2
    | cons b s =>
      simp only [headNL2, Bool.and_eq_true] at h2
      simp [hasTriple, hc, h2.1, h2.2]

theorem cons_triple_safe (c : Char) (X : List Char)
    (hX : hasTriple isNL X = false)
    (hhead : isNL c = true → headNL2 X = false) :
    hasTriple isNL (c :: X) = false := by
  rw [hasTriple_cons_eq, hX, Bool.or_false]
  cases X with
  | nil => rfl
  | cons a t =>
    cases t with
    | nil => rfl
    | cons b s =>
      by_cases hc : isNL c = true
      · have := hhead hc
        simp only [headNL2] at this
        simp [hc, this]
      · simp [show isNL c = false by simpa using hc]

theorem cSP_triple_pres (r : List Char) :
    (hasTriple isNL r = false → hasTriple isNL (cSP .clean r) = false) ∧
    (∀ p, isSP p = true → hasTriple isNL (p :: r) = false →
      hasTriple isNL (cSP (.pending p) r) = false) ∧
    (hasTriple isNL r = false → hasTriple isNL (cSP .skipping r) = false) := by
  induction r with
  | nil =>
    exact ⟨fun _ => by simp [cSP, hasTriple], fun p _ _ => by simp [cSP, hasTriple],
      fun _ => by simp [cSP, hasTriple]⟩
  | cons c t ih =>
    obtain ⟨ihc, ihp, ihs⟩ := ih
    have key : ∀ h : hasTriple isNL (c :: t) = false,
        hasTriple isNL (c :: cSP .clean t) = false := by
      intro h
      refine cons_triple_safe c _ (ihc (hasTriple_tail isNL c t h)) ?_
      intro hc
      cases hh : headNL2 (cSP .clean t) with
      | false => rfl
      | true =>
        exfalso
        have := headNL2_triple c t hc (headNL2_cSP_clean t hh)
        rw [this] at h
        simp at h
    refine ⟨?_, fun p hp hpt => ?_, ?_⟩
    · intro h
      by_cases hc : isSP c = true
      · rw [cSP_cons_clean, if_pos hc]
        exact ihp c hc h
      · rw [cSP_cons_clean, if_neg (by simp [hc])]
        exact key h
    · by_cases hc : isSP c = true
      · rw [cSP_cons_pending, if_pos hc]
        rw [hasTriple_cons_of_not isNL ' ' _ (by decide)]
        exact ihs (hasTriple_tail isNL c t (hasTriple_tail isNL p (c :: t) hpt))
      · rw [cSP_cons_pending, if_neg (by simp [hc])]
        rw [hasTriple_cons_of_not isNL p _ (isNL_of_isSP p hp)]
        exact key (hasTriple_tail isNL p (c :: t) hpt)
    · intro h
      by_cases hc : isSP c = true
      · rw [cSP_cons_skipping, if_pos hc]
        exact ihs (hasTriple_tail isNL c t h)
      · rw [cSP_cons_skipping, if_neg (by simp [hc])]
        exact key h

theorem dropWhile_append_headSafe (p : Char → Bool) (y : List Char)
    (hy : headSafe p y = true) :
    ∀ x : List Char, (x ++ y).dropWhile p = x.dropWhile p ++ y := by
  intro x
  induction x with
  | nil =>
    cases y with
    | nil => simp
    | cons c r =>
      simp only [headSafe, Bool.not_eq_true'] at hy
      simp [List.dropWhile, hy]
  | cons a t ih =>
    by_cases ha : p a = true
    · simp only [List.cons_append, List.dropWhile, ha]
      exact ih
    · simp [List.dropWhile, ha]

theorem dropWhile_eq_self_of_headSafe (p : Char → Bool) (l : List Char)
    (h : headSafe p l = true) : l.dropWhile p = l := by
  cases l with
  | nil => rfl
  | cons c r =>
    simp only [headSafe, Bool.not_eq_true'] at h
    simp [List.dropWhile, h]

theorem headSafe_dropWhile (p : Char → Bool) (l : List Char) :
    headSafe p (l.dropWhile p) = true := by
  induction l with
  | nil => rfl
  | cons c r ih =>
    by_cases hc : p c = true
    · simpa [List.dropWhile, hc] using ih
    · simp [List.dropWhile, hc, headSafe]

theorem lstrip_decomp (l : List Char) : ∃ u, l = u ++ lstrip l :=
  ⟨l.takeWhile pyWS, (List.takeWhile_append_dropWhile pyWS l).symm⟩

theorem rstrip_decomp (l : List Char) : ∃ v, l = rstrip l ++ v := by
  refine ⟨(l.reverse.takeWhile pyWS).reverse, ?_⟩
  have h2 : l = (l.reverse.takeWhile pyWS ++ l.reverse.dropWhile pyWS).reverse := by
    rw [List.takeWhile_append_dropWhile, List.reverse_reverse]
  conv_lhs => rw [h2]
  rw [List.reverse_append]
  rfl

theorem pstrip_decomp (l : List Char) : ∃ u v, l = u ++ pstrip l ++ v := by
  obtain ⟨u, hu⟩ := lstrip_decomp l
  obtain ⟨v, hv⟩ := rstrip_decomp (lstrip l)
  refine ⟨u, v, ?_⟩
  calc l = u ++ lstrip l := hu
    _ = u ++ (pstrip l ++ v) := by
      show u ++ lstrip l = u ++ (rstrip (lstrip l) ++ v)
      rw [← hv]
    _ = u ++ pstrip l ++ v := (List.append_assoc u (pstrip l) v).symm

theorem hasPair_pstrip (p : Char → Bool) (l : List Char)
    (h : hasPair p l = false) : hasPair p (pstrip l) = false := by
  obtain ⟨u, v, huv⟩ := pstrip_decomp l
  rw [huv] at h
  exact hasPair_append_left p _ v (hasPair_append_right p u _ (by
    rw [← List.append_assoc]; exact h))

theorem hasTriple_pstrip (p : Char → Bool) (l : List Char)
    (h : hasTriple p l = false) : hasTriple p (pstrip l) = false := by
  obtain ⟨u, v, huv⟩ := pstrip_decomp l
  rw [huv] at h
  exact hasTriple_append_left p _ v (hasTriple_append_right p u _ (by
    rw [← List.append_assoc]; exact h))

theorem hasAny_pstrip (p : Char → Bool) (l : List Char)
    (h : hasAny p l = false) : hasAny p (pstrip l) = false := by
  obtain ⟨u, v, huv⟩ := pstrip_decomp l
  rw [huv, hasAny_append, hasAny_append, Bool.or_eq_false_iff,
    Bool.or_eq_false_iff] at h
  exact h.1.2

theorem hasChar_pstrip (c : Char) (l : List Char)
    (h : hasChar c l = false) : hasChar c (pstrip l) = false := by
  obtain ⟨u, v, huv⟩ := pstrip_decomp l
  rw [huv, hasChar_append, hasChar_append, Bool.or_eq_false_iff,
    Bool.or_eq_false_iff] at h
  exact h.1.2

theorem rstrip_idem (l : List Char) : rstrip (rstrip l) = rstrip l := by
  unfold rstrip
  rw [List.reverse_reverse, List.dropWhile_idempotent]

theorem lstrip_of_headSafe (l : List Char) (h : headSafe pyWS l = true) :
    lstrip l = l := dropWhile_eq_self_of_headSafe pyWS l h

theorem lstrip_rstrip (m : List Char) (hm : lstrip m = m) :
    lstrip (rstrip m) = rstrip m := by
  have hsafe : headSafe pyWS m = true := by
    rw [← hm]
    exact headSafe_dropWhile pyWS m
  obtain ⟨v, hv⟩ := rstrip_decomp m
  apply lstrip_of_headSafe
  cases hr : rstrip m with
  | nil => rfl
  | cons c w =>
    rw [hr] at hv
    rw [hv] at hsafe
    simpa [headSafe] using hsafe

theorem lstrip_pstrip (l : List Char) : lstrip (pstrip l) = pstrip l :=
  lstrip_rstrip (lstrip l) (List.dropWhile_idempotent pyWS l)

theorem rstrip_pstrip (l : List Char) : rstrip (pstrip l) = pstrip l :=
  rstrip_idem (lstrip l)

theorem clean_text_eq (s : List Char) :
    clean_text s =
      pstrip (cSP .clean (cNL 0 (mapTRFV
        (repC lsq '\'' (repC rsq '\'' (repC rdq '"' (repC ldq '"'
          (repC emDash ',' (replaceDH s))))))))) := rfl

theorem hasPair_repC_inv (p : Char → Bool) (a b : Char)
    (hab : p a = p b) (l : List Char) :
    hasPair p (repC a b l) = hasPair p l := by
  unfold repC
  exact hasPair_map_inv p _ (fun c => by by_cases hc : c = a <;> simp [hc, hab]) l

theorem hasChar_repC_pres (c a b : Char) (hb : b ≠ c) (l : List Char)
    (h : hasChar c l = false) : hasChar c (repC a b l) = false := by
  unfold repC
  refine hasChar_map_none c _ l h fun x hx => ?_
  by_cases hxa : x = a
  · rw [if_pos hxa] at hx
    exact absurd hx hb
  · rwa [if_neg hxa] at hx

theorem hasAny_repC_pres (p : Char → Bool) (a b : Char) (hb : p b = false)
    (l : List Char) (h : hasAny p l = false) :
    hasAny p (repC a b l) = false := by
  unfold repC
  refine hasAny_map_none p _ l h fun x hx => ?_
  by_cases hxa : x = a
  · rw [if_pos hxa] at hx
    rw [hx] at hb
    simp at hb
  · rwa [if_neg hxa] at hx

theorem hasPair_mapTRFV_inv (p : Char → Bool)
    (hp : ∀ c, isTRFV c = true → p c = p ' ') (l : List Char) :
    hasPair p (mapTRFV l) = hasPair p l := by
  unfold mapTRFV
  refine hasPair_map_inv p _ (fun c => ?_) l
  by_cases hc : isTRFV c = true
  · simp [hc, hp c hc]
  · simp [hc]

theorem clean_text_normal (s : List Char) : NormalText (clean_text s) := by
  rw [clean_text_eq]
  set t1 := replaceDH s with ht1
  set t2 := repC emDash ',' t1 with ht2
  set t3 := repC ldq '"' t2 with ht3
  set t4 := repC rdq '"' t3 with ht4
  set t5 := repC rsq '\'' t4 with ht5
  set t6 := repC lsq '\'' t5 with ht6
  set t7 := mapTRFV t6 with ht7
  set t8 := cNL 0 t7 with ht8
  set t9 := cSP .clean t8 with ht9
  have h1dh : hasPair isHy t1 = false := replaceDH_establishes s
  have h2dh : hasPair isHy t2 = false := by
    rw [ht2, hasPair_repC_inv isHy emDash ',' (by decide)]; exact h1dh
  have h2em : hasChar emDash t2 = false := repC_establishes emDash ',' t1 (by decide)
  have h3dh : hasPair isHy t3 = false := by
    rw [ht3, hasPair_repC_inv isHy ldq '"' (by decide)]; exact h2dh
  have h3em : hasChar emDash t3 = false :=
    hasChar_repC_pres emDash ldq '"' (by decide) t2 h2em
  have h3ldq : hasChar ldq t3 = false := repC_establishes ldq '"' t2 (by decide)
  have h4dh : hasPair isHy t4 = false := by
    rw [ht4, hasPair_repC_inv isHy rdq '"' (by decide)]; exact h3dh
  have h4em : hasChar emDash t4 = false :=
    hasChar_repC_pres emDash rdq '"' (by decide) t3 h3em
  have h4ldq : hasChar ldq t4 = false :=
    hasChar_repC_pres ldq rdq '"' (by decide) t3 h3ldq
  have h4rdq : hasChar rdq t4 = false := repC_establishes rdq '"' t3 (by decide)
  have h5dh : hasPair isHy t5 = false := by
    rw [ht5, hasPair_repC_inv isHy rsq '\'' (by decide)]; exact h4dh
  have h5em : hasChar emDash t5 = false :=
    hasChar_repC_pres emDash rsq '\'' (by decide) t4 h4em
  have h5ldq : hasChar ldq t5 = false :=
    hasChar_repC_pres ldq rsq '\'' (by decide) t4 h4ldq
  have h5rdq : hasChar rdq t5 = false :=
    hasChar_repC_pres rdq rsq '\'' (by decide) t4 h4rdq
  have h5rsq : hasChar rsq t5 = false := repC_establishes rsq '\'' t4 (by decide)
  have h6dh : hasPair isHy t6 = false := by
    rw [ht6, hasPair_repC_inv isHy lsq '\'' (by decide)]; exact h5dh
  have h6em : hasChar emDash t6 = false :=
    hasChar_repC_pres emDash lsq '\'' (by decide) t5 h5em
  have h6ldq : hasChar ldq t6 = false :=
    hasChar_repC_pres ldq lsq '\'' (by decide) t5 h5ldq
  have h6rdq : hasChar rdq t6 = false :=
    hasChar_repC_pres rdq lsq '\'' (by decide) t5 h5rdq
  have h6rsq : hasChar rsq t6 = false :=
    hasChar_repC_pres rsq lsq '\'' (by decide) t5 h5rsq
  have h6lsq : hasChar lsq t6 = false := repC_establishes lsq '\'' t5 (by decide)
  have h7dh : hasPair isHy t7 = false := by
    rw [ht7, hasPair_mapTRFV_inv isHy (fun c hc => by
      revert hc
      simp only [isTRFV, Bool.or_eq_true, beq_iff_eq]
      rintro (((rfl | rfl) | rfl) | rfl) <;> decide)]
    exact h6dh
  have h7em : hasChar emDash t7 = false := by
    rw [ht7]
    unfold mapTRFV
    refine hasChar_map_none emDash _ t6 h6em fun x hx => ?_
    by_cases hc : isTRFV x = true
    · rw [if_pos hc] at hx
      exact absurd hx (by decide)
    · rwa [if_neg hc] at hx
  have h7ldq : hasChar ldq t7 = false := by
    rw [ht7]
    unfold mapTRFV
    refine hasChar_map_none ldq _ t6 h6ldq fun x hx => ?_
    by_cases hc : isTRFV x = true
    · rw [if_pos hc] at hx
      exact absurd hx (by decide)
    · rwa [if_neg hc] at hx
  have h7rdq : hasChar rdq t7 = false := by
    rw [ht7]
    unfold mapTRFV
    refine hasChar_map_none rdq _ t6 h6rdq fun x hx => ?_
    by_cases hc : isTRFV x = true
    · rw [if_pos hc] at hx
      exact absurd hx (by decide)
    · rwa [if_neg hc] at hx
  have h7rsq : hasChar rsq t7 = false := by
    rw [ht7]
    unfold mapTRFV
    refine hasChar_map_none rsq _ t6 h6rsq fun x hx => ?_
    by_cases hc : isTRFV x = true
    · rw [if_pos hc] at hx
      exact absurd hx (by decide)
    · rwa [if_neg hc] at hx
  have h7lsq : hasChar lsq t7 = false := by
    rw [ht7]
    unfold mapTRFV
    refine hasChar_map_none lsq _ t6 h6lsq fun x hx => ?_
    by_cases hc : isTRFV x = true
    · rw [if_pos hc] at hx
      exact absurd hx (by decide)
    · rwa [if_neg hc] at hx
  have h7trfv : hasAny isTRFV t7 = false := mapTRFV_establishes t6
  have h8dh : hasPair isHy t8 = false := cNL_pair_pres isHy (by decide) t7 0 h7dh
  have h8em : hasChar emDash t8 = false := cNL_any_pres _ t7 0 h7em
  have h8ldq : hasChar ldq t8 = false := cNL_any_pres _ t7 0 h7ldq
  have h8rdq : hasChar rdq t8 = false := cNL_any_pres _ t7 0 h7rdq
  have h8rsq : hasChar rsq t8 = false := cNL_any_pres _ t7 0 h7rsq
  have h8lsq : hasChar lsq t8 = false := cNL_any_pres _ t7 0 h7lsq
  have h8trfv : hasAny isTRFV t8 = false := cNL_any_pres _ t7 0 h7trfv
  have h8nnn : hasTriple isNL t8 = false := cNL_establishes t7
  have h9dh : hasPair isHy t9 = false :=
    (cSP_pair_pres isHy (by decide) t8).1 h8dh
  have h9em : hasChar emDash t9 = false :=
    cSP_any_pres _ (by decide) t8 .clean trivial h8em
  have h9ldq : hasChar ldq t9 = false :=
    cSP_any_pres _ (by decide) t8 .clean trivial h8ldq
  have h9rdq : hasChar rdq t9 = false :=
    cSP_any_pres _ (by decide) t8 .clean trivial h8rdq
  have h9rsq : hasChar rsq t9 = false :=
    cSP_any_pres _ (by decide) t8 .clean trivial h8rsq
  have h9lsq : hasChar lsq t9 = false :=
    cSP_any_pres _ (by decide) t8 .clean trivial h8lsq
  have h9trfv : hasAny isTRFV t9 = false :=
    cSP_any_pres _ (by decide) t8 .clean trivial h8trfv
  have h9nnn : hasTriple isNL t9 = false := (cSP_triple_pres t8).1 h8nnn
  have h9sp : hasPair isSP t9 = false := (cSP_establishes_all t8).1
  exact {
    ndh := hasPair_pstrip isHy t9 h9dh
    nem := hasChar_pstrip emDash t9 h9em
    nldq := hasChar_pstrip ldq t9 h9ldq
    nrdq := hasChar_pstrip rdq t9 h9rdq
    nrsq := hasChar_pstrip rsq t9 h9rsq
    nlsq := hasChar_pstrip lsq t9 h9lsq
    ntrfv := hasAny_pstrip isTRFV t9 h9trfv
    nnn := hasTriple_pstrip isNL t9 h9nnn
    nsp := hasPair_pstrip isSP t9 h9sp
    nls := lstrip_pstrip t9
    nrs := rstrip_pstrip t9 }

theorem clean_text_fixed (t : List Char) (h : NormalText t) :
    clean_text t = t := by
  rw [clean_text_eq]
  rw [replaceDH_id t h.ndh]
  rw [repC_id emDash ',' t h.nem]
  rw [repC_id ldq '"' t h.nldq]
  rw [repC_id rdq '"' t h.nrdq]
  rw [repC_id rsq '\'' t h.nrsq]
  rw [repC_id lsq '\'' t h.nlsq]
  rw [mapTRFV_id t h.ntrfv]
  rw [cNL_id t h.nnn]
  rw [(cSP_id_all t).1 h.nsp]
  show rstrip (lstrip t) = t
  rw [h.nls, h.nrs]

/-- C3: the text normalizer `clean_text` is idempotent with default
options: normalizing an already-normalized string changes nothing. -/
theorem C3_clean_text_idempotent (s : List Char) :
    clean_text (clean_text s) = clean_text s :=
  clean_text_fixed (clean_text s) (clean_text_normal s)


/-- C7: normalizing "a--b—c" with default options yields "a,b,c", which
contains no double hyphen and no em-dash. -/
theorem C7_dash_rule :
    clean_text ("a--b".data ++ [emDash] ++ "c".data) = "a,b,c".data ∧
    hasPair isHy (clean_text ("a--b".data ++ [emDash] ++ "c".data)) = false ∧
    hasChar emDash (clean_text ("a--b".data ++ [emDash] ++ "c".data)) = false := by
  refine ⟨by decide, by decide, by decide⟩

/-- C8: template substitution replaces each bound placeholder and leaves
unmatched placeholders verbatim, witnessed by the two specified examples
(the Template Engine is modelled from the spec; see applyTemplateAux). -/
theorem C8_template_apply :
    applyTemplate "Write about {topic} for {audience}.".data
      [("topic".data, "bees".data), ("audience".data, "kids".data)] =
      "Write about bees for kids.".data ∧
    applyTemplate "{x}{y}".data [("x".data, "A".data)] = "A{y}".data := by
  refine ⟨by decide, by decide⟩

theorem mem_of_mem_dropWhile (p : Char → Bool) (l : List Char) (c : Char)
    (h : c ∈ l.dropWhile p) : c ∈ l := by
  have := List.takeWhile_append_dropWhile p l
  rw [← this]
  exact List.mem_append_right _ h

theorem mem_of_mem_stripUnd (l : List Char) (c : Char)
    (h : c ∈ stripUnd l) : c ∈ l := by
  unfold stripUnd at h
  rw [List.mem_reverse] at h
  have h2 := mem_of_mem_dropWhile _ _ _ h
  rw [List.mem_reverse] at h2
  exact mem_of_mem_dropWhile _ _ _ h2

theorem mem_wsToUnd (b : Bool) (l : List Char) (c : Char) :
    c ∈ wsToUnd b l → c = '_' ∨ (c ∈ l ∧ pyWS c = false) := by
  induction l generalizing b with
  | nil => intro h; simp [wsToUnd] at h
  | cons a t ih =>
    intro h
    by_cases ha : pyWS a = true
    · by_cases hb : b = true
      · subst hb
        simp only [wsToUnd, ha, if_true] at h
        rcases ih true h with h2 | h2
        · exact Or.inl h2
        · exact Or.inr ⟨List.mem_cons_of_mem a h2.1, h2.2⟩
      · have hb2 : b = false := by simpa using hb
        subst hb2
        simp only [wsToUnd, ha, if_true, Bool.false_eq_true, if_false,
          List.mem_cons] at h
        rcases h with rfl | h
        · exact Or.inl rfl
        · rcases ih true h with h2 | h2
          · exact Or.inl h2
          · exact Or.inr ⟨List.mem_cons_of_mem a h2.1, h2.2⟩
    · simp only [wsToUnd, ha, Bool.false_eq_true, if_false, List.mem_cons] at h
      rcases h with rfl | h
      · exact Or.inr ⟨List.mem_cons_self c t, by simpa using ha⟩
      · rcases ih false h with h2 | h2
        · exact Or.inl h2
        · exact Or.inr ⟨List.mem_cons_of_mem a h2.1, h2.2⟩

theorem isSlugChar_of_keep (c : Char) (hk : isSlugKeep c = true)
    (hw : pyWS c = false) : isSlugChar c = true := by
  simp only [isSlugKeep, Bool.or_eq_true, beq_iff_eq] at hk
  rcases hk with ((((((h | h) | h) | h) | h) | h) | h)
  · simp [isSlugChar, h]
  · simp [isSlugChar, h]
  · simp [isSlugChar, h]
  · subst h; decide
  · subst h; decide
  · subst h; exact absurd hw (by decide)
  · subst h; decide

/-- C10: slugify always returns a non-empty string whose characters are
letters, digits, hyphen, underscore, or period (never whitespace), and
returns "ebook" when nothing safe survives the cleanup pipeline. -/
theorem C10_slugify_safe (s : List Char) :
    slugify s ≠ [] ∧ (∀ c ∈ slugify s, isSlugChar c = true) ∧
    (stripUnd (wsToUnd false (s.filter isSlugKeep)) = [] →
      slugify s = "ebook".data) := by
  refine ⟨?_, ?_, ?_⟩
  · unfold slugify
    by_cases h : stripUnd (wsToUnd false (s.filter isSlugKeep)) = []
    · rw [if_pos h]; decide
    · rw [if_neg h]; exact h
  · intro c hc
    unfold slugify at hc
    by_cases h : stripUnd (wsToUnd false (s.filter isSlugKeep)) = []
    · rw [if_pos h] at hc
      fin_cases hc <;> decide
    · rw [if_neg h] at hc
      have h1 := mem_of_mem_stripUnd _ c hc
      rcases mem_wsToUnd false _ c h1 with h2 | h2
      · subst h2; decide
      · exact isSlugChar_of_keep c (List.of_mem_filter h2.1) h2.2
  · intro h
    unfold slugify
    rw [if_pos h]

/-- C9: for a configuration whose mode is none of the five recognized
provider modes, `Expander.expand` returns its input unchanged (and, the
whole dispatch being total, never raises). -/
theorem C9_expand_unknown_mode (cfg : ExpCfg) (tr : Transports) (m : List Char)
    (h1 : cfg.mode ≠ "offline".data) (h2 : cfg.mode ≠ "openai".data)
    (h3 : cfg.mode ≠ "gemini".data) (h4 : cfg.mode ≠ "local".data)
    (h5 : cfg.mode ≠ "llama.cpp".data) :
    Expander.expand cfg tr m = m := by
  unfold Expander.expand
  rw [if_neg h1, if_neg h2, if_neg h3, if_neg h4, if_neg h5]

/-- Witness for C9 at a concrete unrecognized mode. -/
theorem C9_expand_unknown_mode_witness :
    Expander.expand
      ⟨"anthropic".data, [], [], [], false⟩
      ⟨fun _ => .error (), fun _ => .error (), fun _ => .error (),
        .ok (), fun _ => .error ()⟩ "hello".data = "hello".data :=
  C9_expand_unknown_mode _ _ _ (by decide) (by decide) (by decide)
    (by decide) (by decide)

theorem expand_openai_fail (cfg : ExpCfg) (tr : Transports)
    (h1 : cfg.mode = "openai".data)
    (h2 : ∀ p, tr.openai p = .error ()) (m : List Char) :
    Expander.expand cfg tr m = m := by
  unfold Expander.expand
  rw [if_neg (by rw [h1]; decide), if_pos h1]
  unfold openaiLike
  by_cases hk : cfg.openai_api_key = [] ∧
      containsSub "127.0.0.1".data cfg.openai_base = false
  · rw [if_pos hk]
  · rw [if_neg hk, h2 m]

theorem autonomousWith_congr (f g : List Char → List Char)
    (h : ∀ p, f p = g p) (title subtitle toc description : List Char) :
    autonomousWith f title subtitle toc description =
      autonomousWith g title subtitle toc description := by
  have hfg : f = g := funext h
  rw [hfg]

/-- C2 counterexample: with an openai-mode configuration whose transport
fails on every request (for example an HTTP error), `Expander.expand`
returns the prompt unchanged and `autonomous_generation` produces the
same completed document as an expander that never fails: the failure is
swallowed, the assembler continues past the failing chapter, and no
chapter index or cause reaches the caller. -/
theorem C2_counterexample :
    Expander.expand
      ⟨"openai".data, "k".data, "https://api.openai.com/v1".data, [], false⟩
      ⟨fun _ => .error (), fun _ => .error (), fun _ => .error (),
        .ok (), fun _ => .error ()⟩ "PROMPT".data = "PROMPT".data ∧
    autonomous_generation "T".data [] "A,B".data []
      ⟨"openai".data, "k".data, "https://api.openai.com/v1".data, [], false⟩
      ⟨fun _ => .error (), fun _ => .error (), fun _ => .error (),
        .ok (), fun _ => .error ()⟩ =
      autonomousWith (fun p => p) "T".data [] "A,B".data [] := by
  constructor
  · exact expand_openai_fail _ _ rfl (fun _ => rfl) _
  · exact autonomousWith_congr _ _
      (expand_openai_fail _ _ rfl (fun _ => rfl)) _ _ _ _

/-- C2 amended: on provider failure for a chapter, `Expander.expand`
catches the exception and falls back to returning the prompt unchanged;
`autonomous_generation` therefore continues through every chapter and
returns the document assembled as if the expander were the identity, and
no failure, chapter index, or cause is surfaced to the caller. -/
theorem C2_failure_swallowed (cfg : ExpCfg) (tr : Transports)
    (h1 : cfg.mode = "openai".data)
    (h2 : ∀ p, tr.openai p = .error ()) :
    (∀ m, Expander.expand cfg tr m = m) ∧
    (∀ title subtitle toc description,
      autonomous_generation title subtitle toc description cfg tr =
        autonomousWith (fun p => p) title subtitle toc description) := by
  refine ⟨expand_openai_fail cfg tr h1 h2, ?_⟩
  intro title subtitle toc description
  exact autonomousWith_congr _ _ (expand_openai_fail cfg tr h1 h2) _ _ _ _

/-- Witness for the amended C2 at a concrete configuration. -/
theorem C2_failure_swallowed_witness :
    (∀ m, Expander.expand
      ⟨"openai".data, "k".data, "https://api.openai.com/v1".data, [], false⟩
      ⟨fun _ => .error (), fun _ => .error (), fun _ => .error (),
        .ok (), fun _ => .error ()⟩ m = m) ∧
    (∀ title subtitle toc description,
      autonomous_generation title subtitle toc description
        ⟨"openai".data, "k".data, "https://api.openai.com/v1".data, [], false⟩
        ⟨fun _ => .error (), fun _ => .error (), fun _ => .error (),
          .ok (), fun _ => .error ()⟩ =
        autonomousWith (fun p => p) title subtitle toc description) :=
  C2_failure_swallowed _ _ rfl (fun _ => rfl)

theorem digitChar_mem (n : Nat) : digitChar (n % 10) ∈ "0123456789".data := by
  have h : n % 10 < 10 := Nat.mod_lt _ (by omega)
  set m := n % 10 with hm
  interval_cases m <;> decide

theorem natDigitsAux_mem (fuel : Nat) :
    ∀ (n : Nat) (acc : List Char),
      (∀ c ∈ acc, c ∈ "0123456789".data) →
      ∀ c ∈ natDigitsAux fuel n acc, c ∈ "0123456789".data := by
  induction fuel with
  | zero => intro n acc hacc c hc; exact hacc c hc
  | succ f ih =>
    intro n acc hacc c hc
    simp only [natDigitsAux] at hc
    by_cases hn : n < 10
    · rw [if_pos hn] at hc
      rcases List.mem_cons.mp hc with rfl | hc2
      · exact digitChar_mem n
      · exact hacc c hc2
    · rw [if_neg hn] at hc
      refine ih (n / 10) _ ?_ c hc
      intro x hx
      rcases List.mem_cons.mp hx with rfl | hx2
      · exact digitChar_mem n
      · exact hacc x hx2

theorem natDigits_mem (n : Nat) : ∀ c ∈ natDigits n, c ∈ "0123456789".data :=
  natDigitsAux_mem (n + 1) n [] (by simp)

theorem digit_props (c : Char) (h : c ∈ "0123456789".data) :
    isHy c = false ∧ isSP c = false ∧ isNL c = false ∧ pyWS c = false ∧
    isTRFV c = false ∧ c ≠ emDash ∧ c ≠ ldq ∧ c ≠ rdq ∧ c ≠ rsq ∧ c ≠ lsq := by
  fin_cases h <;> exact ⟨by decide, by decide, by decide, by decide, by decide,
    by decide, by decide, by decide, by decide, by decide⟩

theorem hasPair_presafe (p : Char → Bool) (d : List Char)
    (hd : ∀ c ∈ d, p c = false) (y : List Char) :
    hasPair p (d ++ y) = hasPair p y := by
  induction d with
  | nil => simp
  | cons c t ih =>
    rw [List.cons_append, hasPair_cons_of_not p c _ (hd c (by simp))]
    exact ih fun x hx => hd x (by simp [hx])

theorem dropWhile_len_le (p : Char → Bool) (l : List Char) :
    (l.dropWhile p).length ≤ l.length := by
  induction l with
  | nil => simp
  | cons a t ih =>
    by_cases h : p a = true
    · rw [List.dropWhile_cons_of_pos h]
      simp only [List.length_cons]
      omega
    · simp [List.dropWhile, h]

theorem headSafe_of_dropWhile_eq (p : Char → Bool) (l : List Char)
    (h : l.dropWhile p = l) : headSafe p l = true := by
  cases l with
  | nil => rfl
  | cons c t =>
    by_cases hc : p c = true
    · exfalso
      rw [List.dropWhile_cons_of_pos hc] at h
      have h2 := dropWhile_len_le p t
      rw [h] at h2
      simp at h2
    · simp [headSafe, hc]

theorem rev_headSafe_of_rstrip (ch : List Char) (h : rstrip ch = ch) :
    headSafe pyWS ch.reverse = true := by
  unfold rstrip at h
  have h2 : ch.reverse.dropWhile pyWS = ch.reverse := by
    have := congrArg List.reverse h
    rwa [List.reverse_reverse] at this
  exact headSafe_of_dropWhile_eq pyWS ch.reverse h2

theorem headSafe_append_left (p : Char → Bool) (a b : List Char)
    (ha : a ≠ []) : headSafe p (a ++ b) = headSafe p a := by
  cases a with
  | nil => exact absurd rfl ha
  | cons c t => simp [headSafe]

theorem isSP_pyWS (c : Char) (h : isSP c = true) : pyWS c = true := by
  simp only [isSP, Bool.or_eq_true, beq_iff_eq] at h
  rcases h with rfl | rfl <;> decide

theorem headSafe_mono_pyWS (l : List Char) (h : headSafe pyWS l = true) :
    headSafe isSP l = true := by
  cases l with
  | nil => rfl
  | cons c t =>
    simp only [headSafe, Bool.not_eq_true'] at h ⊢
    cases hc : isSP c with
    | false => rfl
    | true => rw [isSP_pyWS c hc] at h; exact h

theorem chapHeading_eq (i : Nat) (ch : List Char) :
    chapHeading i ch = '#' :: '#' :: ' ' :: (natDigits i ++ '.' :: ' ' :: ch) := by
  show ("## ".data ++ natDigits i ++ ". ".data ++ ch) = _
  have h1 : "## ".data = ['#', '#', ' '] := rfl
  have h2 : ". ".data = ['.', ' '] := rfl
  rw [h1, h2]
  simp

theorem hasAny_eq_hasChar_nl (l : List Char) : hasAny isNL l = hasChar '\n' l := rfl

theorem chapHeading_ok (i : Nat) (ch : List Char) (hch : HeadOK ch) :
    HeadingOK (chapHeading i ch) := by
  have heq := chapHeading_eq i ch
  have hdig := natDigits_mem i
  have hchHead : headSafe pyWS ch = true := by
    rw [← hch.norm.nls]
    exact headSafe_dropWhile pyWS ch
  refine ⟨⟨_, heq⟩, ?_, ?_, ?_, ?_, ?_, ?_, ?_, ?_, ?_, ?_, ?_⟩
  · rw [heq]
    rw [hasPair_cons_of_not isHy '#' _ (by decide),
      hasPair_cons_of_not isHy '#' _ (by decide),
      hasPair_cons_of_not isHy ' ' _ (by decide),
      hasPair_presafe isHy (natDigits i)
        (fun c hc => (digit_props c (hdig c hc)).1),
      hasPair_cons_of_not isHy '.' _ (by decide),
      hasPair_cons_of_not isHy ' ' _ (by decide)]
    exact hch.norm.ndh
  · rw [heq]
    rw [hasPair_cons_of_not isSP '#' _ (by decide),
      hasPair_cons_of_not isSP '#' _ (by decide)]
    have hsafe1 : headSafe isSP (natDigits i ++ '.' :: ' ' :: ch) = true := by
      cases hnd : natDigits i with
      | nil => rfl
      | cons d t =>
        have hd := (digit_props d (hdig d (by simp [hnd]))).2.1
        simp [headSafe, hd]
    rw [hasPair_cons_headSafe isSP ' ' _ hsafe1,
      hasPair_presafe isSP (natDigits i)
        (fun c hc => (digit_props c (hdig c hc)).2.1),
      hasPair_cons_of_not isSP '.' _ (by decide),
      hasPair_cons_headSafe isSP ' ' _ (headSafe_mono_pyWS ch hchHead)]
    exact hch.norm.nsp
  · rw [heq]
    simp only [hasAny, List.any_cons, List.any_append, Bool.or_eq_false_iff]
    refine ⟨by decide, by decide, by decide, ?_, by decide, by decide, ?_⟩
    · rw [List.any_eq_false]
      intro c hc
      simp [(digit_props c (hdig c hc)).2.2.1]
    · have := hch.nonl
      simpa [hasChar, isNL] using this
  · rw [heq]
    simp only [hasChar, List.any_cons, List.any_append, Bool.or_eq_false_iff]
    refine ⟨by decide, by decide, by decide, ?_, by decide, by decide, ?_⟩
    · rw [List.any_eq_false]
      intro c hc
      simpa using (digit_props c (hdig c hc)).2.2.2.2.2.1
    · simpa [hasChar] using hch.norm.nem
  · rw [heq]
    simp only [hasChar, List.any_cons, List.any_append, Bool.or_eq_false_iff]
    refine ⟨by decide, by decide, by decide, ?_, by decide, by decide, ?_⟩
    · rw [List.any_eq_false]
      intro c hc
      simpa using (digit_props c (hdig c hc)).2.2.2.2.2.2.1
    · simpa [hasChar] using hch.norm.nldq
  · rw [heq]
    simp only [hasChar, List.any_cons, List.any_append, Bool.or_eq_false_iff]
    refine ⟨by decide, by decide, by decide, ?_, by decide, by decide, ?_⟩
    · rw [List.any_eq_false]
      intro c hc
      simpa using (digit_props c (hdig c hc)).2.2.2.2.2.2.2.1
    · simpa [hasChar] using hch.norm.nrdq
  · rw [heq]
    simp only [hasChar, List.any_cons, List.any_append, Bool.or_eq_false_iff]
    refine ⟨by decide, by decide, by decide, ?_, by decide, by decide, ?_⟩
    · rw [List.any_eq_false]
      intro c hc
      simpa using (digit_props c (hdig c hc)).2.2.2.2.2.2.2.2.1
    · simpa [hasChar] using hch.norm.nrsq
  · rw [heq]
    simp only [hasChar, List.any_cons, List.any_append, Bool.or_eq_false_iff]
    refine ⟨by decide, by decide, by decide, ?_, by decide, by decide, ?_⟩
    · rw [List.any_eq_false]
      intro c hc
      simpa using (digit_props c (hdig c hc)).2.2.2.2.2.2.2.2.2
    · simpa [hasChar] using hch.norm.nlsq
  · rw [heq]
    simp only [hasAny, List.any_cons, List.any_append, Bool.or_eq_false_iff]
    refine ⟨by decide, by decide, by decide, ?_, by decide, by decide, ?_⟩
    · rw [List.any_eq_false]
      intro c hc
      simp [(digit_props c (hdig c hc)).2.2.2.2.1]
    · simpa [hasAny] using hch.norm.ntrfv
  · rw [heq]
    have hrev : ('#' :: '#' :: ' ' :: (natDigits i ++ '.' :: ' ' :: ch)).reverse =
        ch.reverse ++ (' ' :: '.' :: (natDigits i).reverse ++ [' ', '#', '#']) := by
      simp
    rw [hrev, headSafe_append_left pyWS _ _
      (by simp [hch.ne]),
      ]
    exact rev_headSafe_of_rstrip ch hch.norm.nrs
  · rw [heq]; simp

theorem chainList_cons (h v : List Char) (ps : List (List Char × List Char)) :
    chainList ((h, v) :: ps) = h ++ (v ++ chainList ps) := by
  simp [chainList]

theorem chainList_append (a b : List (List Char × List Char)) :
    chainList (a ++ b) = chainList a ++ chainList b := by
  induction a with
  | nil => simp [chainList]
  | cons pr t ih =>
    obtain ⟨h, v⟩ := pr
    simp [chainList, ih]

theorem mapV_fst (f : List Char → List Char) (pairs : List (List Char × List Char)) :
    (mapV f pairs).map Prod.fst = pairs.map Prod.fst := by
  induction pairs with
  | nil => rfl
  | cons pr t ih => simp [mapV, ih]

theorem chain_headSafe (q : Char → Bool) (hq : q '#' = false)
    (pairs : List (List Char × List Char)) (hp : PairsOK pairs) :
    headSafe q (chainList pairs) = true := by
  cases pairs with
  | nil => rfl
  | cons pr t =>
    obtain ⟨h, v⟩ := pr
    obtain ⟨⟨⟨t2, ht2⟩, _, _, _, _, _, _, _, _, _, _, _⟩, -⟩ :=
      hp (h, v) (by simp)
    have ht3 : h = '#' :: t2 := ht2
    rw [chainList_cons, ht3]
    simp [headSafe, hq]

theorem pairsOK_tail (pr : List Char × List Char)
    (ps : List (List Char × List Char)) (hp : PairsOK (pr :: ps)) :
    PairsOK ps := fun x hx => hp x (by simp [hx])

theorem replaceDH_chain (pairs : List (List Char × List Char))
    (hp : PairsOK pairs) :
    (∀ u, replaceDH (u ++ chainList pairs) =
      replaceDH u ++ chainList (mapV replaceDH pairs)) ∧
    PairsOK (mapV replaceDH pairs) := by
  induction pairs with
  | nil => exact ⟨fun u => by simp [chainList, mapV], fun pr hpr => by simp [mapV] at hpr⟩
  | cons pr ps ih =>
    obtain ⟨h, v⟩ := pr
    obtain ⟨hH0, tv, htv0⟩ := hp (h, v) (by simp)
    have hH : HeadingOK h := hH0
    have htv : v = '\n' :: tv := htv0
    obtain ⟨ihEq, ihOK⟩ := ih (pairsOK_tail _ _ hp)
    have hvEq : replaceDH v = '\n' :: replaceDH tv := by
      rw [htv, replaceDH_cons_of_ne '\n' tv (by decide)]
    constructor
    · intro u
      rw [replaceDH_append u _ (by
        have := chain_headSafe isHy (by decide) ((h, v) :: ps) hp
        cases hcl : chainList ((h, v) :: ps) with
        | nil => rfl
        | cons c t => rw [hcl] at this; exact this)]
      rw [chainList_cons]
      rw [replaceDH_append h _ (by rw [htv]; rfl)]
      rw [replaceDH_id h hH.ndh]
      rw [ihEq v]
      simp only [mapV, List.map_cons, chainList_cons]
    · intro pr hpr
      simp only [mapV, List.map_cons, List.mem_cons] at hpr
      rcases hpr with rfl | hpr
      · exact ⟨hH, replaceDH tv, hvEq⟩
      · exact ihOK pr (by simpa [mapV] using hpr)

theorem chain_map_id (f : Char → Char) (pairs : List (List Char × List Char))
    (hid : ∀ pr ∈ pairs, (pr.1).map f = pr.1) :
    (chainList pairs).map f = chainList (mapV (List.map f) pairs) := by
  induction pairs with
  | nil => rfl
  | cons pr ps ih =>
    obtain ⟨h, v⟩ := pr
    rw [chainList_cons, List.map_append, List.map_append,
      hid (h, v) (by simp), ih (fun x hx => hid x (by simp [hx]))]
    simp only [mapV, List.map_cons, chainList_cons]

theorem map_stage_chain (f : Char → Char) (hnl : f '\n' = '\n')
    (pairs : List (List Char × List Char)) (hp : PairsOK pairs)
    (hid : ∀ pr ∈ pairs, (pr.1).map f = pr.1) :
    (∀ u, (u ++ chainList pairs).map f =
      u.map f ++ chainList (mapV (List.map f) pairs)) ∧
    PairsOK (mapV (List.map f) pairs) := by
  constructor
  · intro u
    rw [List.map_append, chain_map_id f pairs hid]
  · intro pr hpr
    simp only [mapV, List.mem_map] at hpr
    obtain ⟨⟨h, v⟩, hmem, rfl⟩ := hpr
    obtain ⟨hH0, tv, htv0⟩ := hp (h, v) hmem
    have htv : v = '\n' :: tv := htv0
    refine ⟨hH0, (tv.map f), ?_⟩
    show v.map f = '\n' :: tv.map f
    rw [htv, List.map_cons, hnl]

theorem cNL_chain (pairs : List (List Char × List Char)) (hp : PairsOK pairs) :
    (∀ u, cNL 0 (u ++ chainList pairs) =
      cNL 0 u ++ chainList (mapV (cNL 0) pairs)) ∧
    PairsOK (mapV (cNL 0) pairs) := by
  induction pairs with
  | nil => exact ⟨fun u => by simp [chainList, mapV], fun pr hpr => by simp [mapV] at hpr⟩
  | cons pr ps ih =>
    obtain ⟨h, v⟩ := pr
    obtain ⟨hH0, tv, htv0⟩ := hp (h, v) (by simp)
    have hH : HeadingOK h := hH0
    have htv : v = '\n' :: tv := htv0
    obtain ⟨ihEq, ihOK⟩ := ih (pairsOK_tail _ _ hp)
    have hvEq : cNL 0 v = '\n' :: cNL 1 tv := by
      rw [htv, cNL_zero_cons]
      simp [isNL]
    constructor
    · intro u
      rw [cNL_append _ (chain_headSafe isNL (by decide) ((h, v) :: ps) hp) u 0]
      rw [chainList_cons]
      rw [cNL_nlfree_front h hH.nonl]
      rw [ihEq v]
      simp only [mapV, List.map_cons, chainList_cons]
    · intro pr hpr
      simp only [mapV, List.map_cons, List.mem_cons] at hpr
      rcases hpr with rfl | hpr
      · exact ⟨hH, cNL 1 tv, hvEq⟩
      · exact ihOK pr (by simpa [mapV] using hpr)

theorem cSP_chain (pairs : List (List Char × List Char)) (hp : PairsOK pairs) :
    (∀ u, cSP .clean (u ++ chainList pairs) =
      cSP .clean u ++ chainList (mapV (cSP .clean) pairs)) ∧
    PairsOK (mapV (cSP .clean) pairs) := by
  induction pairs with
  | nil => exact ⟨fun u => by simp [chainList, mapV], fun pr hpr => by simp [mapV] at hpr⟩
  | cons pr ps ih =>
    obtain ⟨h, v⟩ := pr
    obtain ⟨hH0, tv, htv0⟩ := hp (h, v) (by simp)
    have hH : HeadingOK h := hH0
    have htv : v = '\n' :: tv := htv0
    obtain ⟨ihEq, ihOK⟩ := ih (pairsOK_tail _ _ hp)
    have hvEq : cSP .clean v = '\n' :: cSP .clean tv := by
      rw [htv, cSP_cons_clean, if_neg (by decide)]
    constructor
    · intro u
      rw [cSP_append _ (chain_headSafe isSP (by decide) ((h, v) :: ps) hp) u .clean]
      rw [chainList_cons]
      rw [cSP_append _ (by rw [htv]; rfl) h .clean]
      rw [(cSP_id_all h).1 hH.nsp]
      rw [ihEq v]
      simp only [mapV, List.map_cons, chainList_cons]
    · intro pr hpr
      simp only [mapV, List.map_cons, List.mem_cons] at hpr
      rcases hpr with rfl | hpr
      · exact ⟨hH, cSP .clean tv, hvEq⟩
      · exact ihOK pr (by simpa [mapV] using hpr)

theorem rstrip_append_headSafe (a b : List Char)
    (ha : headSafe pyWS a.reverse = true) :
    rstrip (a ++ b) = a ++ rstrip b := by
  unfold rstrip
  rw [List.reverse_append, dropWhile_append_headSafe pyWS a.reverse ha b.reverse,
    List.reverse_append, List.reverse_reverse]

theorem pstrip_chain (pairs : List (List Char × List Char)) (hp : PairsOK pairs)
    (hne : pairs ≠ []) (u : List Char) :
    ∃ u2 pairs2, pstrip (u ++ chainList pairs) = u2 ++ chainList pairs2 ∧
      pairs2.map Prod.fst = pairs.map Prod.fst := by
  have hstep1 : lstrip (u ++ chainList pairs) = lstrip u ++ chainList pairs := by
    unfold lstrip
    exact dropWhile_append_headSafe pyWS _
      (chain_headSafe pyWS (by decide) pairs hp) u
  rcases List.eq_nil_or_concat' pairs with rfl | ⟨ps, pr, rfl⟩
  · exact absurd rfl hne
  · obtain ⟨hn, vn⟩ := pr
    obtain ⟨hH0, tv, htv0⟩ := hp (hn, vn) (by simp)
    have hH : HeadingOK hn := hH0
    have hrevSafe : headSafe pyWS (lstrip u ++ (chainList ps ++ hn)).reverse = true := by
      rw [List.reverse_append]
      rw [headSafe_append_left pyWS _ _ (by
        simp only [ne_eq, List.reverse_eq_nil_iff, List.append_eq_nil, not_and]
        intro _ h2
        exact absurd h2 hH.ne)]
      rw [List.reverse_append]
      rw [headSafe_append_left pyWS _ _ (by
        simpa [List.reverse_eq_nil_iff] using hH.ne)]
      exact hH.lastSafe
    have hsplit : chainList (ps ++ [(hn, vn)]) =
        (chainList ps ++ hn) ++ vn := by
      rw [chainList_append]
      simp [chainList]
    refine ⟨lstrip u, ps ++ [(hn, rstrip vn)], ?_, by simp⟩
    unfold pstrip
    rw [hstep1, hsplit, ← List.append_assoc]
    rw [rstrip_append_headSafe (lstrip u ++ (chainList ps ++ hn)) vn
      hrevSafe]
    rw [chainList_append]
    simp [chainList]

theorem repC_chain (a b : Char) (hna : a ≠ '\n')
    (pairs : List (List Char × List Char)) (hp : PairsOK pairs)
    (hid : ∀ pr ∈ pairs, hasChar a pr.1 = false) :
    (∀ u, repC a b (u ++ chainList pairs) =
      repC a b u ++ chainList (mapV (repC a b) pairs)) ∧
    PairsOK (mapV (repC a b) pairs) := by
  have h := map_stage_chain (fun c => if c = a then b else c)
    (by show (if ('\n' : Char) = a then b else '\n') = '\n'
        rw [if_neg (Ne.symm hna)]) pairs hp
    (fun pr hpr => repC_id a b pr.1 (hid pr hpr))
  exact ⟨fun u => h.1 u, h.2⟩

theorem mapTRFV_chain (pairs : List (List Char × List Char)) (hp : PairsOK pairs)
    (hid : ∀ pr ∈ pairs, hasAny isTRFV pr.1 = false) :
    (∀ u, mapTRFV (u ++ chainList pairs) =
      mapTRFV u ++ chainList (mapV mapTRFV pairs)) ∧
    PairsOK (mapV mapTRFV pairs) := by
  have h := map_stage_chain (fun c => if isTRFV c then ' ' else c)
    (by decide) pairs hp
    (fun pr hpr => mapTRFV_id pr.1 (hid pr hpr))
  exact ⟨fun u => h.1 u, h.2⟩

theorem mapV_ne (f : List Char → List Char)
    (pairs : List (List Char × List Char)) (hne : pairs ≠ []) :
    mapV f pairs ≠ [] := by
  cases pairs with
  | nil => exact absurd rfl hne
  | cons pr t => simp [mapV]

theorem clean_chain (pairs : List (List Char × List Char)) (hp : PairsOK pairs)
    (hne : pairs ≠ []) (u : List Char) :
    ∃ u2 pairs2, clean_text (u ++ chainList pairs) = u2 ++ chainList pairs2 ∧
      pairs2.map Prod.fst = pairs.map Prod.fst := by
  rw [clean_text_eq]
  obtain ⟨e1, ok1⟩ := replaceDH_chain pairs hp
  rw [e1 u]
  obtain ⟨e2, ok2⟩ := repC_chain emDash ',' (by decide) _ ok1
    (fun pr hpr => ((ok1 pr hpr).1).nem)
  rw [e2]
  obtain ⟨e3, ok3⟩ := repC_chain ldq '"' (by decide) _ ok2
    (fun pr hpr => ((ok2 pr hpr).1).nldq)
  rw [e3]
  obtain ⟨e4, ok4⟩ := repC_chain rdq '"' (by decide) _ ok3
    (fun pr hpr => ((ok3 pr hpr).1).nrdq)
  rw [e4]
  obtain ⟨e5, ok5⟩ := repC_chain rsq '\'' (by decide) _ ok4
    (fun pr hpr => ((ok4 pr hpr).1).nrsq)
  rw [e5]
  obtain ⟨e6, ok6⟩ := repC_chain lsq '\'' (by decide) _ ok5
    (fun pr hpr => ((ok5 pr hpr).1).nlsq)
  rw [e6]
  obtain ⟨e7, ok7⟩ := mapTRFV_chain _ ok6
    (fun pr hpr => ((ok6 pr hpr).1).ntrfv)
  rw [e7]
  obtain ⟨e8, ok8⟩ := cNL_chain _ ok7
  rw [e8]
  obtain ⟨e9, ok9⟩ := cSP_chain _ ok8
  rw [e9]
  obtain ⟨u2, pairs2, e10, hfst⟩ := pstrip_chain _ ok9
    (mapV_ne _ _ (mapV_ne _ _ (mapV_ne _ _ (mapV_ne _ _ (mapV_ne _ _
      (mapV_ne _ _ (mapV_ne _ _ (mapV_ne _ _ (mapV_ne _ _ hne))))))))) _
  refine ⟨u2, pairs2, e10, ?_⟩
  rw [hfst]
  simp only [mapV_fst]

theorem chain_occurs :
    ∀ (pairs : List (List Char × List Char)) (u : List Char),
      OccursInOrder (u ++ chainList pairs) (pairs.map Prod.fst) := by
  intro pairs
  induction pairs with
  | nil => intro u; simp [OccursInOrder]
  | cons pr ps ih =>
    intro u
    obtain ⟨h, v⟩ := pr
    refine ⟨u, v ++ chainList ps, ?_, ih v⟩
    rw [chainList_cons]
    simp

theorem joinSep_cons_ne (sep x : List Char) (ys : List (List Char))
    (hy : ys ≠ []) : joinSep sep (x :: ys) = x ++ sep ++ joinSep sep ys := by
  cases ys with
  | nil => exact absurd rfl hy
  | cons y t => rfl

theorem joinSep_append (sep : List Char) (xs ys : List (List Char))
    (hx : xs ≠ []) (hy : ys ≠ []) :
    joinSep sep (xs ++ ys) = joinSep sep xs ++ sep ++ joinSep sep ys := by
  induction xs with
  | nil => exact absurd rfl hx
  | cons x t ih =>
    cases t with
    | nil =>
      rw [List.singleton_append, joinSep_cons_ne sep x ys hy]
      rfl
    | cons x2 t2 =>
      rw [List.cons_append, joinSep_cons_ne sep x _ (by simp),
        joinSep_cons_ne sep x (x2 :: t2) (by simp),
        ih (by simp)]
      simp [List.append_assoc]

theorem goodchain_absorb (x doc : List Char) (hs : List (List Char))
    (h : GoodChain doc hs) : GoodChain (x ++ doc) hs := by
  obtain ⟨u, pairs, heq, hfst, hnl⟩ := h
  exact ⟨x ++ u, pairs, by rw [heq, List.append_assoc], hfst, hnl⟩

theorem headingElem_eq (i : Nat) (ch : List Char) :
    headingElem i ch = '\n' :: '\n' :: (chapHeading i ch ++ "\n".data) := by
  show "\n\n".data ++ chapHeading i ch ++ "\n".data = _
  simp

theorem blocks_goodchain (bf : Nat × List Char → List (List Char))
    (hbf : ∀ p, ∃ rest, bf p = headingElem p.1 p.2 :: rest) :
    ∀ el : List (Nat × List Char), el ≠ [] →
      GoodChain (joinSep "\n".data (el.flatMap bf))
        (el.map fun p => chapHeading p.1 p.2) := by
  intro el
  induction el with
  | nil => intro h; exact absurd rfl h
  | cons p el2 ih =>
    intro _
    obtain ⟨rest, hrest⟩ := hbf p
    have hsingle : ∃ v t, joinSep "\n".data (bf p) =
        '\n' :: '\n' :: (chapHeading p.1 p.2 ++ v) ∧ v = '\n' :: t := by
      rw [hrest]
      cases rest with
      | nil =>
        refine ⟨"\n".data, [], ?_, rfl⟩
        show headingElem p.1 p.2 = _
        rw [headingElem_eq]
      | cons r rs =>
        refine ⟨"\n".data ++ "\n".data ++ joinSep "\n".data (r :: rs), _, ?_, rfl⟩
        rw [joinSep_cons_ne _ _ _ (by simp), headingElem_eq]
        simp
    obtain ⟨v, tv, hv, hvt⟩ := hsingle
    cases el2 with
    | nil =>
      simp only [List.flatMap_cons, List.flatMap_nil, List.append_nil]
      refine ⟨['\n', '\n'], [(chapHeading p.1 p.2, v)], ?_, by simp, ?_⟩
      · rw [hv]
        simp [chainList]
      · intro pr hpr
        simp only [List.mem_singleton] at hpr
        subst hpr
        exact ⟨tv, hvt⟩
    | cons q el3 =>
      obtain ⟨u2, pairs2, heq2, hfst2, hnl2⟩ := ih (by simp)
      have hbfne : bf p ≠ [] := by rw [hrest]; simp
      have hflatne : (q :: el3).flatMap bf ≠ [] := by
        obtain ⟨rq, hrq⟩ := hbf q
        simp only [List.flatMap_cons, hrq]
        simp
      rw [List.flatMap_cons,
        joinSep_append "\n".data (bf p) _ hbfne hflatne]
      rw [hv, heq2]
      refine ⟨['\n', '\n'],
        (chapHeading p.1 p.2, v ++ "\n".data ++ u2) :: pairs2, ?_,
        by simp [hfst2], ?_⟩
      · rw [chainList_cons]
        simp
      · intro pr hpr
        rcases List.mem_cons.mp hpr with rfl | hpr2
        · exact ⟨tv ++ "\n".data ++ u2, by rw [hvt]; simp⟩
        · exact hnl2 pr hpr2

theorem replaceDH_any_pres (p : Char → Bool) (hc : p ',' = false) :
    ∀ l, hasAny p l = false → hasAny p (replaceDH l) = false := by
  intro l
  induction l using replaceDH.induct with
  | case1 => intro h; exact h
  | case2 c => intro h; exact h
  | case3 a b rest hab ih =>
    obtain ⟨rfl, rfl⟩ := hab
    intro h
    rw [replaceDH_cons2, if_pos ⟨rfl, rfl⟩]
    simp only [hasAny, List.any_cons, hc, Bool.false_or]
    refine ih ?_
    simp only [hasAny, List.any_cons, Bool.or_eq_false_iff] at h
    exact h.2.2
  | case4 a b rest hab ih =>
    intro h
    rw [replaceDH_cons2, if_neg hab]
    simp only [hasAny, List.any_cons, Bool.or_eq_false_iff] at h ⊢
    exact ⟨h.1, ih (by simp [hasAny, h.2.1, h.2.2])⟩

theorem replaceDH_exists (p : Char → Bool) (hc : p ',' = true) :
    ∀ l, hasAny p l = true → hasAny p (replaceDH l) = true := by
  intro l
  induction l using replaceDH.induct with
  | case1 => intro h; exact h
  | case2 c => intro h; exact h
  | case3 a b rest hab ih =>
    obtain ⟨rfl, rfl⟩ := hab
    intro _
    rw [replaceDH_cons2, if_pos ⟨rfl, rfl⟩]
    simp [hasAny, hc]
  | case4 a b rest hab ih =>
    intro h
    rw [replaceDH_cons2, if_neg hab]
    simp only [hasAny, List.any_cons, Bool.or_eq_true] at h ⊢
    rcases h with h | h
    · exact Or.inl h
    · exact Or.inr (by
        have := ih (by simpa [hasAny] using h)
        simpa [hasAny] using this)

theorem map_exists (p : Char → Bool) (f : Char → Char)
    (hf : ∀ c, p c = true → p (f c) = true) (l : List Char)
    (h : hasAny p l = true) : hasAny p (l.map f) = true := by
  simp only [hasAny, List.any_eq_true] at h ⊢
  obtain ⟨c, hc, hpc⟩ := h
  exact ⟨f c, List.mem_map_of_mem f hc, hf c hpc⟩

theorem cNL_exists (p : Char → Bool) (hnl : p '\n' = false) :
    ∀ (l : List Char) (k : Nat), hasAny p l = true →
      hasAny p (cNL k l) = true := by
  intro l
  induction l with
  | nil => intro k h; simp [hasAny] at h
  | cons c r ih =>
    intro k h
    simp only [hasAny, List.any_cons, Bool.or_eq_true] at h
    by_cases hnc : isNL c = true
    · have hceq : c = '\n' := by simpa [isNL] using hnc
      have hr : hasAny p r = true := by
        rcases h with h | h
        · rw [hceq] at h; rw [hnl] at h; exact absurd h (by simp)
        · simpa [hasAny] using h
      by_cases hk : 2 ≤ k
      · simp only [cNL, hnc, if_pos hk, if_true]
        exact ih 2 hr
      · simp only [cNL, hnc, if_neg hk, if_true, hasAny, List.any_cons,
          Bool.or_eq_true]
        exact Or.inr (by simpa [hasAny] using ih (k + 1) hr)
    · simp only [cNL, hnc, Bool.false_eq_true, if_false, hasAny,
        List.any_cons, Bool.or_eq_true]
      rcases h with h | h
      · exact Or.inl h
      · exact Or.inr (by simpa [hasAny] using ih 0 (by simpa [hasAny] using h))

theorem cSP_exists (p : Char → Bool) (hsp : p ' ' = false) (htb : p '\t' = false) :
    ∀ (l : List Char) (s : SPState), hasAny p l = true →
      hasAny p (cSP s l) = true := by
  have hspc : ∀ c, isSP c = true → p c = false := by
    intro c hc
    simp only [isSP, Bool.or_eq_true, beq_iff_eq] at hc
    rcases hc with rfl | rfl
    · exact hsp
    · exact htb
  intro l
  induction l with
  | nil => intro s h; simp [hasAny] at h
  | cons c r ih =>
    intro s h
    simp only [hasAny, List.any_cons, Bool.or_eq_true] at h
    by_cases hc : isSP c = true
    · have hr : hasAny p r = true := by
        rcases h with h | h
        · rw [hspc c hc] at h; exact absurd h (by simp)
        · simpa [hasAny] using h
      cases s with
      | clean =>
        rw [cSP_cons_clean, if_pos hc]
        exact ih (.pending c) hr
      | pending q =>
        rw [cSP_cons_pending, if_pos hc]
        simp only [hasAny, List.any_cons, Bool.or_eq_true]
        exact Or.inr (by simpa [hasAny] using ih .skipping hr)
      | skipping =>
        rw [cSP_cons_skipping, if_pos hc]
        exact ih .skipping hr
    · cases s with
      | clean =>
        rw [cSP_cons_clean, if_neg (by simp [hc])]
        simp only [hasAny, List.any_cons, Bool.or_eq_true]
        rcases h with h | h
        · exact Or.inl h
        · exact Or.inr (by
            simpa [hasAny] using ih .clean (by simpa [hasAny] using h))
      | pending q =>
        rw [cSP_cons_pending, if_neg (by simp [hc])]
        simp only [hasAny, List.any_cons, Bool.or_eq_true]
        rcases h with h | h
        · exact Or.inr (Or.inl h)
        · exact Or.inr (Or.inr (by
            simpa [hasAny] using ih .clean (by simpa [hasAny] using h)))
      | skipping =>
        rw [cSP_cons_skipping, if_neg (by simp [hc])]
        simp only [hasAny, List.any_cons, Bool.or_eq_true]
        rcases h with h | h
        · exact Or.inl h
        · exact Or.inr (by
            simpa [hasAny] using ih .clean (by simpa [hasAny] using h))

theorem all_ws_dropWhile_nil (l : List Char) (h : ∀ c ∈ l, pyWS c = true) :
    l.dropWhile pyWS = [] := by
  induction l with
  | nil => rfl
  | cons c t ih =>
    rw [List.dropWhile_cons_of_pos (h c (by simp))]
    exact ih fun x hx => h x (by simp [hx])

theorem pstrip_decomp_ws (l : List Char) :
    ∃ u v, l = u ++ pstrip l ++ v ∧ (∀ c ∈ u, pyWS c = true) ∧
      (∀ c ∈ v, pyWS c = true) := by
  refine ⟨l.takeWhile pyWS,
    ((lstrip l).reverse.takeWhile pyWS).reverse, ?_, ?_, ?_⟩
  · have h1 : l = l.takeWhile pyWS ++ lstrip l :=
      (List.takeWhile_append_dropWhile pyWS l).symm
    have h2 : lstrip l =
        pstrip l ++ ((lstrip l).reverse.takeWhile pyWS).reverse := by
      have h3 : (lstrip l).reverse =
          (lstrip l).reverse.takeWhile pyWS ++ (lstrip l).reverse.dropWhile pyWS :=
        (List.takeWhile_append_dropWhile pyWS _).symm
      have h4 := congrArg List.reverse h3
      rw [List.reverse_reverse, List.reverse_append] at h4
      exact h4
    calc l = List.takeWhile pyWS l ++ lstrip l := h1
      _ = List.takeWhile pyWS l ++
          (pstrip l ++ ((lstrip l).reverse.takeWhile pyWS).reverse) :=
        congrArg (List.takeWhile pyWS l ++ ·) h2
      _ = List.takeWhile pyWS l ++ pstrip l ++
          ((lstrip l).reverse.takeWhile pyWS).reverse :=
        (List.append_assoc _ _ _).symm
  · intro c hc
    exact List.mem_takeWhile_imp hc
  · intro c hc
    rw [List.mem_reverse] at hc
    exact List.mem_takeWhile_imp hc

theorem pstrip_nil_of_all_ws (l : List Char) (h : ∀ c ∈ l, pyWS c = true) :
    pstrip l = [] := by
  unfold pstrip lstrip rstrip
  rw [all_ws_dropWhile_nil l h]
  rfl

theorem pstrip_ne_of_exists (l : List Char)
    (h : hasAny (fun c => !pyWS c) l = true) : pstrip l ≠ [] := by
  intro hnil
  obtain ⟨u, v, heq, hu, hv⟩ := pstrip_decomp_ws l
  rw [hnil, List.append_nil] at heq
  simp only [hasAny, List.any_eq_true] at h
  obtain ⟨c, hc, hpc⟩ := h
  rw [heq] at hc
  rcases List.mem_append.mp hc with hcu | hcv
  · rw [hu c hcu] at hpc; exact absurd hpc (by simp)
  · rw [hv c hcv] at hpc; exact absurd hpc (by simp)

theorem hasAny_exists_of_pstrip_ne (l : List Char) (h : pstrip l ≠ []) :
    hasAny (fun c => !pyWS c) l = true := by
  by_contra hno
  have hall : ∀ c ∈ l, pyWS c = true := by
    intro c hc
    have := (hasAny_eq_false_iff _ l).mp (by simpa using hno) c hc
    simpa using this
  exact h (pstrip_nil_of_all_ws l hall)

theorem clean_text_nonl (x : List Char) (h : hasChar '\n' x = false) :
    hasChar '\n' (clean_text x) = false := by
  rw [clean_text_eq]
  have hnl : hasAny isNL x = false := by rwa [hasAny_eq_hasChar_nl]
  have h1 : hasAny isNL (replaceDH x) = false :=
    replaceDH_any_pres isNL (by decide) x hnl
  have h2 : hasAny isNL (repC emDash ',' (replaceDH x)) = false :=
    hasAny_repC_pres isNL emDash ',' (by decide) _ h1
  have h3 := hasAny_repC_pres isNL ldq '"' (by decide) _ h2
  have h4 := hasAny_repC_pres isNL rdq '"' (by decide) _ h3
  have h5 := hasAny_repC_pres isNL rsq '\'' (by decide) _ h4
  have h6 := hasAny_repC_pres isNL lsq '\'' (by decide) _ h5
  have h7 : hasAny isNL (mapTRFV (repC lsq '\'' (repC rsq '\''
      (repC rdq '"' (repC ldq '"' (repC emDash ',' (replaceDH x))))))) = false := by
    unfold mapTRFV
    refine hasAny_map_none isNL _ _ h6 fun c hc => ?_
    by_cases ht : isTRFV c = true
    · rw [if_pos ht] at hc
      exact absurd hc (by decide)
    · rwa [if_neg ht] at hc
  have h8 := cNL_any_pres isNL _ 0 h7
  have h9 := cSP_any_pres isNL (by decide) _ .clean trivial h8
  have h10 := hasAny_pstrip isNL _ h9
  rwa [hasAny_eq_hasChar_nl] at h10

theorem clean_text_ne (x : List Char) (h : pstrip x ≠ []) :
    clean_text x ≠ [] := by
  rw [clean_text_eq]
  set nw : Char → Bool := fun c => !pyWS c with hnw
  have h0 : hasAny nw x = true := hasAny_exists_of_pstrip_ne x h
  have h1 : hasAny nw (replaceDH x) = true :=
    replaceDH_exists nw (by decide) x h0
  have hmap : ∀ (a b : Char), nw b = true →
      ∀ l, hasAny nw l = true →
        hasAny nw (repC a b l) = true := by
    intro a b hb l hl
    refine map_exists nw _ (fun c hc => ?_) l hl
    by_cases hca : c = a
    · rw [if_pos hca]; exact hb
    · rwa [if_neg hca]
  have h2 := hmap emDash ',' (by decide) _ h1
  have h3 := hmap ldq '"' (by decide) _ h2
  have h4 := hmap rdq '"' (by decide) _ h3
  have h5 := hmap rsq '\'' (by decide) _ h4
  have h6 := hmap lsq '\'' (by decide) _ h5
  have h7 : hasAny nw (mapTRFV (repC lsq '\'' (repC rsq '\''
      (repC rdq '"' (repC ldq '"' (repC emDash ',' (replaceDH x))))))) = true := by
    unfold mapTRFV
    refine map_exists nw _ (fun c hc => ?_) _ h6
    by_cases ht : isTRFV c = true
    · exfalso
      have : pyWS c = true := by
        simp only [isTRFV, Bool.or_eq_true, beq_iff_eq] at ht
        rcases ht with ((rfl | rfl) | rfl) | rfl <;> decide
      rw [hnw] at hc
      simp only [this] at hc
      exact absurd hc (by simp)
    · rwa [if_neg ht]
  have h8 := cNL_exists nw (by decide) _ 0 h7
  have h9 := cSP_exists nw (by decide) (by decide) _ .clean h8
  exact pstrip_ne_of_exists _ h9

theorem splitlinesAux_mem_nolb :
    ∀ (l : List Char) (skip : Bool) (cur : List Char),
      (∀ c ∈ cur, isLineBreak c = false) →
      ∀ x ∈ splitlinesAux skip cur l, ∀ c ∈ x, isLineBreak c = false := by
  intro l
  induction l with
  | nil =>
    intro skip cur hcur x hx c hc
    simp only [splitlinesAux] at hx
    by_cases hn : cur = []
    · rw [if_pos hn] at hx; simp at hx
    · rw [if_neg hn] at hx
      simp only [List.mem_singleton] at hx
      subst hx
      exact hcur c (List.mem_reverse.mp hc)
  | cons a r ih =>
    intro skip cur hcur x hx c hc
    simp only [splitlinesAux] at hx
    by_cases h1 : skip = true ∧ a = '\n'
    · rw [if_pos h1] at hx
      exact ih false [] (by simp) x hx c hc
    · rw [if_neg h1] at hx
      by_cases h2 : a = '\r'
      · rw [if_pos h2] at hx
        rcases List.mem_cons.mp hx with rfl | hx2
        · exact hcur c (List.mem_reverse.mp hc)
        · exact ih true [] (by simp) x hx2 c hc
      · rw [if_neg h2] at hx
        by_cases h3 : isLineBreak a = true
        · rw [if_pos h3] at hx
          rcases List.mem_cons.mp hx with rfl | hx2
          · exact hcur c (List.mem_reverse.mp hc)
          · exact ih false [] (by simp) x hx2 c hc
        · rw [if_neg h3] at hx
          refine ih false (a :: cur) ?_ x hx c hc
          intro y hy
          rcases List.mem_cons.mp hy with rfl | hy2
          · simpa using h3
          · exact hcur y hy2

theorem splitChAux_mem (sep : Char) :
    ∀ (l cur : List Char) (x : List Char) (c : Char),
      x ∈ splitChAux sep cur l → c ∈ x → c ∈ cur ∨ c ∈ l := by
  intro l
  induction l with
  | nil =>
    intro cur x c hx hc
    simp only [splitChAux, List.mem_singleton] at hx
    subst hx
    exact Or.inl (List.mem_reverse.mp hc)
  | cons a r ih =>
    intro cur x c hx hc
    simp only [splitChAux] at hx
    by_cases h1 : a = sep
    · rw [if_pos h1] at hx
      rcases List.mem_cons.mp hx with rfl | hx2
      · exact Or.inl (List.mem_reverse.mp hc)
      · rcases ih [] x c hx2 hc with h | h
        · simp at h
        · exact Or.inr (by simp [h])
    · rw [if_neg h1] at hx
      rcases ih (a :: cur) x c hx hc with h | h
      · rcases List.mem_cons.mp h with rfl | h2
        · exact Or.inr (by simp)
        · exact Or.inl h2
      · exact Or.inr (by simp [h])

theorem parseChapters_headOK (toc : List Char) :
    ∀ ch ∈ parseChapters toc, HeadOK ch := by
  intro ch hch
  unfold parseChapters at hch
  by_cases hnl : hasChar '\n' toc = true
  · rw [if_pos hnl] at hch
    obtain ⟨x, hx, rfl⟩ := List.mem_map.mp hch
    obtain ⟨hxm, hxf⟩ := List.mem_filter.mp hx
    have hpx : pstrip x ≠ [] := by
      intro h0
      rw [h0] at hxf
      simp at hxf
    have hxnl : hasChar '\n' x = false := by
      rw [hasChar_eq_false_iff]
      intro c hc hceq
      have := splitlinesAux_mem_nolb toc false [] (by simp) x hxm c hc
      rw [hceq] at this
      exact absurd this (by decide)
    exact ⟨clean_text_ne x hpx, clean_text_nonl x hxnl, clean_text_normal x⟩
  · rw [if_neg hnl] at hch
    obtain ⟨x, hx, rfl⟩ := List.mem_map.mp hch
    obtain ⟨hxm, hxf⟩ := List.mem_filter.mp hx
    have hpx : pstrip x ≠ [] := by
      intro h0
      rw [h0] at hxf
      simp at hxf
    have hxnl : hasChar '\n' x = false := by
      rw [hasChar_eq_false_iff]
      intro c hc hceq
      rcases splitChAux_mem ',' toc [] x c hxm hc with h | h
      · simp at h
      · subst hceq
        refine hnl ?_
        simp only [hasChar, List.any_eq_true]
        exact ⟨'\n', h, by simp⟩
    exact ⟨clean_text_ne x hpx, clean_text_nonl x hxnl, clean_text_normal x⟩

theorem headOK_defaults : ∀ ch ∈ defaultChapters, HeadOK ch := by
  intro ch hch
  fin_cases hch <;>
    exact ⟨by decide, by decide, ⟨by decide, by decide, by decide, by decide,
      by decide, by decide, by decide, by decide, by decide, by decide,
      by decide⟩⟩

theorem scaffoldChapters_headOK (toc : List Char) :
    ∀ ch ∈ scaffoldChapters toc, HeadOK ch := by
  intro ch hch
  unfold scaffoldChapters at hch
  by_cases h : parseChapters toc = []
  · rw [h] at hch
    simp only [if_pos rfl] at hch
    exact headOK_defaults ch hch
  · simp only [if_neg h] at hch
    exact parseChapters_headOK toc ch hch

theorem scaffoldChapters_ne (toc : List Char) : scaffoldChapters toc ≠ [] := by
  unfold scaffoldChapters
  by_cases h : parseChapters toc = []
  · rw [h]
    simp only [if_pos rfl]
    decide
  · simp only [if_neg h]
    exact h

theorem enumFrom_ne (n : Nat) (l : List (List Char)) (h : l ≠ []) :
    enumFrom n l ≠ [] := by
  cases l with
  | nil => exact absurd rfl h
  | cons a t => simp [enumFrom]

theorem enumFrom_mem_snd :
    ∀ (l : List (List Char)) (n : Nat) (p : Nat × List Char),
      p ∈ enumFrom n l → p.2 ∈ l := by
  intro l
  induction l with
  | nil => intro n p hp; simp [enumFrom] at hp
  | cons a t ih =>
    intro n p hp
    simp only [enumFrom, List.mem_cons] at hp
    rcases hp with rfl | hp
    · simp
    · exact List.mem_cons_of_mem a (ih (n + 1) p hp)

theorem map_eq_flatMap_singleton (f : Nat × List Char → List Char)
    (l : List (Nat × List Char)) :
    l.map f = l.flatMap fun x => [f x] := by
  induction l with
  | nil => rfl
  | cons a t ih => simp [ih]

theorem preElems_ne (t s d : List Char) : preElems t s d ≠ [] := by
  unfold preElems
  simp

theorem flatMap_blocks_ne (bf : Nat × List Char → List (List Char))
    (hbf : ∀ p, ∃ rest, bf p = headingElem p.1 p.2 :: rest)
    (el : List (Nat × List Char)) (hel : el ≠ []) : el.flatMap bf ≠ [] := by
  cases el with
  | nil => exact absurd rfl hel
  | cons q t =>
    obtain ⟨rq, hrq⟩ := hbf q
    simp only [List.flatMap_cons, hrq]
    simp

theorem scaffold_goodchain (t2 s2 d2 topic : List Char)
    (chapters : List (List Char)) (o : RandOracle) (hch : chapters ≠ []) :
    GoodChain (joinSep "\n".data (scaffoldOut t2 s2 d2 topic chapters o))
      ((enumFrom 1 chapters).map fun p => chapHeading p.1 p.2) := by
  unfold scaffoldOut
  have henum : enumFrom 1 chapters ≠ [] := enumFrom_ne 1 chapters hch
  by_cases htop : topic = "Digital Marketing Strategy".data
  · rw [if_pos htop]
    have hbf : ∀ p : Nat × List Char, ∃ rest,
        tdBlock o p.1 p.2 = headingElem p.1 p.2 :: rest := fun p => ⟨_, rfl⟩
    have hgc := blocks_goodchain (fun p => tdBlock o p.1 p.2) hbf
      (enumFrom 1 chapters) henum
    have hfront : preElems t2 s2 d2 ++
        (enumFrom 1 chapters).map (fun p => tocLine p.1 p.2) ≠ [] := by
      intro h0
      exact preElems_ne t2 s2 d2 (List.append_eq_nil.mp h0).1
    rw [joinSep_append "\n".data _ _ hfront
      (flatMap_blocks_ne _ hbf _ henum)]
    exact goodchain_absorb _ _ _ hgc
  · rw [if_neg htop]
    have hbf : ∀ p : Nat × List Char, ∃ rest,
        (fun q : Nat × List Char => [headingElem q.1 q.2]) p =
          headingElem p.1 p.2 :: rest := fun p => ⟨[], rfl⟩
    rw [map_eq_flatMap_singleton (fun p => headingElem p.1 p.2)]
    have hgc := blocks_goodchain _ hbf (enumFrom 1 chapters) henum
    have hfront : preElems t2 s2 d2 ++
        (enumFrom 1 chapters).map (fun p => tocLine p.1 p.2) ≠ [] := by
      intro h0
      exact preElems_ne t2 s2 d2 (List.append_eq_nil.mp h0).1
    rw [joinSep_append "\n".data _ _ hfront
      (flatMap_blocks_ne _ hbf _ henum)]
    exact goodchain_absorb _ _ _ hgc

theorem scaffold_occurs (title subtitle toc description topic : List Char)
    (o : RandOracle) :
    OccursInOrder (scaffold_from_meta title subtitle toc description topic o)
      ((enumFrom 1 (scaffoldChapters toc)).map fun p => chapHeading p.1 p.2) := by
  have hch := scaffoldChapters_ne toc
  have hgc := scaffold_goodchain
    (clean_text (if title = [] then "Untitled".data else title))
    (clean_text subtitle) (clean_text description) topic
    (scaffoldChapters toc) o hch
  obtain ⟨u, pairs, heq, hfst, hnlv⟩ := hgc
  have hPairsOK : PairsOK pairs := by
    intro pr hpr
    refine ⟨?_, hnlv pr hpr⟩
    have hmem : pr.1 ∈ (enumFrom 1 (scaffoldChapters toc)).map
        (fun p => chapHeading p.1 p.2) := by
      rw [← hfst]
      exact List.mem_map_of_mem Prod.fst hpr
    obtain ⟨p, hpenum, hpr1⟩ := List.mem_map.mp hmem
    rw [← hpr1]
    exact chapHeading_ok p.1 p.2
      (scaffoldChapters_headOK toc p.2 (enumFrom_mem_snd _ 1 p hpenum))
  have hpairs_ne : pairs ≠ [] := by
    intro h0
    rw [h0] at hfst
    have := enumFrom_ne 1 _ hch
    cases henum : enumFrom 1 (scaffoldChapters toc) with
    | nil => exact this henum
    | cons q t =>
      rw [henum] at hfst
      simp at hfst
  obtain ⟨u2, pairs2, heq2, hfst2⟩ := clean_chain pairs hPairsOK hpairs_ne u
  have hdoc : scaffold_from_meta title subtitle toc description topic o =
      u2 ++ chainList pairs2 := by
    show clean_text (joinSep "\n".data (scaffoldOut
      (clean_text (if title = [] then "Untitled".data else title))
      (clean_text subtitle) (clean_text description) topic
      (scaffoldChapters toc) o)) = u2 ++ chainList pairs2
    rw [heq, heq2]
  rw [hdoc, ← hfst, ← hfst2]
  exact chain_occurs pairs2 u2

theorem autonomousWith_shape (f : List Char → List Char)
    (title subtitle toc description : List Char) :
    autonomousWith f title subtitle toc description = emptyTocError ∨
    ∃ X, autonomousWith f title subtitle toc description = clean_text X := by
  unfold autonomousWith
  by_cases h : parseChapters toc = []
  · rw [h]
    exact Or.inl (by simp)
  · rw [if_neg h]
    exact Or.inr ⟨_, rfl⟩

theorem autonomousWith_fixed (f : List Char → List Char)
    (title subtitle toc description : List Char) :
    clean_text (autonomousWith f title subtitle toc description) =
      autonomousWith f title subtitle toc description := by
  rcases autonomousWith_shape f title subtitle toc description with h | ⟨X, h⟩
  · rw [h]
    decide
  · rw [h]
    exact clean_text_fixed _ (clean_text_normal _)

theorem scaffold_fixed (title subtitle toc description topic : List Char)
    (o : RandOracle) :
    clean_text (scaffold_from_meta title subtitle toc description topic o) =
      scaffold_from_meta title subtitle toc description topic o :=
  clean_text_fixed _ (clean_text_normal _)

/-- C5: both generators return documents that are fixed points of the
text normalizer: the whole assembled manuscript passes through
`clean_text` before being returned, and `clean_text` is idempotent, so
normalizing a returned document changes nothing (the empty-ToC error
string of `autonomous_generation` is itself already normal). -/
theorem C5_results_are_normal_fixed_points
    (title subtitle toc description topic : List Char) (o : RandOracle)
    (t2 s2 toc2 d2 : List Char) (cfg : ExpCfg) (tr : Transports) :
    clean_text (scaffold_from_meta title subtitle toc description topic o) =
      scaffold_from_meta title subtitle toc description topic o ∧
    clean_text (autonomous_generation t2 s2 toc2 d2 cfg tr) =
      autonomous_generation t2 s2 toc2 d2 cfg tr :=
  ⟨scaffold_fixed title subtitle toc description topic o,
    autonomousWith_fixed (Expander.expand cfg tr) t2 s2 toc2 d2⟩

/-- C6: chapters appear in the assembled document in table-of-contents
order: for every metadata, topic and random draw, the deterministic
generator's output decomposes as prefix, heading of chapter 1, material,
heading of chapter 2, material, and so on, so each chapter's level-2
heading occurs at a strictly smaller string index than the next
chapter's. -/
theorem C6_chapters_in_toc_order
    (title subtitle toc description topic : List Char) (o : RandOracle) :
    OccursInOrder (scaffold_from_meta title subtitle toc description topic o)
      ((enumFrom 1 (scaffoldChapters toc)).map fun p => chapHeading p.1 p.2) :=
  scaffold_occurs title subtitle toc description topic o

theorem startsWithL_append (p x : List Char) : startsWithL p (p ++ x) = true := by
  induction p with
  | nil => rfl
  | cons a t ih => simp [startsWithL, ih]

theorem containsSub_of_decomp (h rest : List Char) :
    ∀ u, containsSub h (u ++ (h ++ rest)) = true := by
  intro u
  induction u with
  | nil =>
    rw [List.nil_append]
    cases hy : h ++ rest with
    | nil =>
      have h0 : h = [] := (List.append_eq_nil.mp hy).1
      simp [containsSub, h0]
    | cons c t =>
      rw [containsSub, ← hy, startsWithL_append]
      simp
  | cons a u2 ih =>
    rw [List.cons_append, containsSub, ih]
    simp

theorem occurs_head_sub (doc h : List Char) (hs : List (List Char))
    (hocc : OccursInOrder doc (h :: hs)) : containsSub h doc = true := by
  obtain ⟨u, rest, rfl, -⟩ := hocc
  rw [List.append_assoc]
  exact containsSub_of_decomp h rest u

/-- C1 counterexample: with an empty table of contents,
`autonomous_generation` returns the error string
"# Error: Table of Contents is empty." rather than a document with the
default four-chapter skeleton — its output does not even contain the
heading "## 1. Introduction", so the claim fails for that entry point. -/
theorem C1_counterexample :
    ¬ OccursInOrder
      (autonomous_generation "T".data [] [] []
        ⟨"offline".data, [], [], [], false⟩
        ⟨fun _ => .error (), fun _ => .error (), fun _ => .error (),
          .ok (), fun _ => .error ()⟩)
      ["## 1. Introduction".data, "## 2. Chapter 1".data,
       "## 3. Chapter 2".data, "## 4. Conclusion".data] := by
  intro hocc
  have hsub := occurs_head_sub _ _ _ hocc
  revert hsub
  decide

/-- C1 amended: when the table of contents parses to an empty chapter
list, `scaffold_from_meta` substitutes the default four-chapter skeleton
(Introduction, Chapter 1, Chapter 2, Conclusion, in that order) and its
document carries those four headings in order; `autonomous_generation`,
however, does not substitute the skeleton and instead returns the error
string "# Error: Table of Contents is empty.". -/
theorem C1_empty_toc_default
    (title subtitle toc description topic : List Char) (o : RandOracle)
    (cfg : ExpCfg) (tr : Transports) (h : parseChapters toc = []) :
    scaffoldChapters toc = defaultChapters ∧
    OccursInOrder (scaffold_from_meta title subtitle toc description topic o)
      ["## 1. Introduction".data, "## 2. Chapter 1".data,
       "## 3. Chapter 2".data, "## 4. Conclusion".data] ∧
    autonomous_generation title subtitle toc description cfg tr =
      emptyTocError := by
  have h1 : scaffoldChapters toc = defaultChapters := by
    simp [scaffoldChapters, h]
  refine ⟨h1, ?_, ?_⟩
  · have hocc := scaffold_occurs title subtitle toc description topic o
    rw [h1] at hocc
    have hl : (enumFrom 1 defaultChapters).map (fun p => chapHeading p.1 p.2) =
        ["## 1. Introduction".data, "## 2. Chapter 1".data,
         "## 3. Chapter 2".data, "## 4. Conclusion".data] := by decide
    rwa [hl] at hocc
  · unfold autonomous_generation autonomousWith
    rw [h]
    simp

/-- Witness for the amended C1 at the empty table of contents. -/
theorem C1_empty_toc_default_witness :
    scaffoldChapters [] = defaultChapters ∧
    OccursInOrder (scaffold_from_meta "T".data [] [] [] [] 
      ⟨fun l => l.headD [], fun k l => l.take k⟩)
      ["## 1. Introduction".data, "## 2. Chapter 1".data,
       "## 3. Chapter 2".data, "## 4. Conclusion".data] ∧
    autonomous_generation "T".data [] [] []
      ⟨"offline".data, [], [], [], false⟩
      ⟨fun _ => .error (), fun _ => .error (), fun _ => .error (),
        .ok (), fun _ => .error ()⟩ = emptyTocError :=
  C1_empty_toc_default "T".data [] [] [] []
    ⟨fun l => l.headD [], fun k l => l.take k⟩
    ⟨"offline".data, [], [], [], false⟩
    ⟨fun _ => .error (), fun _ => .error (), fun _ => .error (),
      .ok (), fun _ => .error ()⟩ (by decide)

theorem pySplitAux_append_ws (sep : List Char) (hsep : ∀ c ∈ sep, pyWS c = true)
    (hne : sep ≠ []) (b : List Char) :
    ∀ (a cur : List Char),
      pySplitAux cur (a ++ (sep ++ b)) = pySplitAux cur a ++ pySplit b := by
  intro a
  induction a with
  | nil =>
    intro cur
    rw [List.nil_append]
    cases sep with
    | nil => exact absurd rfl hne
    | cons s t =>
      have hs : pyWS s = true := hsep s (by simp)
      have hrest : ∀ (u : List Char), (∀ c ∈ u, pyWS c = true) →
          pySplitAux [] (u ++ b) = pySplit b := by
        intro u
        induction u with
        | nil => intro _; rfl
        | cons x v ihv =>
          intro hu
          rw [List.cons_append]
          simp only [pySplitAux, hu x (by simp), if_true, if_pos rfl]
          exact ihv fun c hc => hu c (by simp [hc])
      rw [List.cons_append]
      by_cases hcur : cur = []
      · subst hcur
        simp only [pySplitAux, hs, if_true, if_pos rfl]
        rw [hrest t fun c hc => hsep c (by simp [hc])]
        simp [pySplitAux]
      · simp only [pySplitAux, hs, if_true, if_neg hcur]
        rw [hrest t fun c hc => hsep c (by simp [hc])]
        simp [pySplitAux, hcur]
  | cons x a2 ih =>
    intro cur
    rw [List.cons_append]
    by_cases hx : pyWS x = true
    · by_cases hcur : cur = []
      · subst hcur
        simp only [pySplitAux, hx, if_true, if_pos rfl]
        exact ih []
      · simp only [pySplitAux, hx, if_true, if_neg hcur]
        rw [ih []]
        simp
    · simp only [pySplitAux, hx, Bool.false_eq_true, if_false]
      exact ih (x :: cur)

theorem wordCount_join_append (sep : List Char)
    (hsep : ∀ c ∈ sep, pyWS c = true) (hne : sep ≠ [])
    (xs : List (List Char)) (y : List Char) :
    wordCount (joinSep sep (xs ++ [y])) =
      wordCount (joinSep sep xs) + wordCount y := by
  cases xs with
  | nil =>
    simp [joinSep, wordCount, pySplit, pySplitAux]
  | cons x t =>
    rw [joinSep_append sep (x :: t) [y] (by simp) (by simp)]
    show wordCount ((joinSep sep (x :: t) ++ sep) ++ joinSep sep [y]) = _
    rw [List.append_assoc]
    unfold wordCount pySplit
    rw [pySplitAux_append_ws sep hsep hne (joinSep sep [y]) (joinSep sep (x :: t)) []]
    simp [joinSep, pySplit, List.length_append]

theorem wordCount_fillerPara : wordCount fillerPara = 18 := by decide

theorem chunkLoopF_upper (target : Nat) :
    ∀ (fuel : Nat) (chunk : List (List Char)) (para : List Char),
      wordCount (joinSep " ".data chunk) < target →
      wordCount (joinSep " ".data (chunkLoopF target fuel chunk para)) < target := by
  intro fuel
  induction fuel with
  | zero => intro chunk para h; exact h
  | succ f ih =>
    intro chunk para h
    by_cases hc : wordCount (joinSep " ".data (chunk ++ [para])) < target
    · rw [chunkLoopF, if_pos hc]
      exact ih (chunk ++ [para]) fillerPara hc
    · rw [chunkLoopF, if_neg hc]
      exact h

theorem chunkLoopF_lower (target : Nat) :
    ∀ (fuel : Nat) (chunk : List (List Char)),
      target ≤ wordCount (joinSep " ".data (chunk ++ [fillerPara])) + 18 * fuel →
      target ≤ wordCount (joinSep " ".data
        (chunkLoopF target fuel chunk fillerPara)) + 18 := by
  have hadd : ∀ chunk : List (List Char),
      wordCount (joinSep " ".data (chunk ++ [fillerPara])) =
        wordCount (joinSep " ".data chunk) + 18 := by
    intro chunk
    rw [wordCount_join_append " ".data (by decide) (by decide) chunk fillerPara,
      wordCount_fillerPara]
  intro fuel
  induction fuel with
  | zero =>
    intro chunk h
    rw [chunkLoopF]
    rw [hadd chunk] at h
    omega
  | succ f ih =>
    intro chunk h
    by_cases hc : wordCount (joinSep " ".data (chunk ++ [fillerPara])) < target
    · rw [chunkLoopF, if_pos hc]
      refine ih (chunk ++ [fillerPara]) ?_
      rw [hadd (chunk ++ [fillerPara])]
      rw [hadd chunk] at h ⊢
      omega
    · rw [chunkLoopF, if_neg hc]
      rw [hadd chunk] at hc
      omega

theorem buildChunk_upper (target : Nat) (para1 : List Char) (ht : 0 < target) :
    wordCount (joinSep " ".data (buildChunk target para1)) < target := by
  unfold buildChunk
  refine chunkLoopF_upper target (target + 1) [] para1 ?_
  simpa [joinSep, wordCount, pySplit, pySplitAux] using ht

theorem buildChunk_lower (target : Nat) (para1 : List Char)
    (hp : wordCount para1 < target) :
    target ≤ wordCount (joinSep " ".data (buildChunk target para1)) + 18 := by
  unfold buildChunk
  have h1 : wordCount (joinSep " ".data ([] ++ [para1])) < target := by
    simpa [joinSep] using hp
  rw [chunkLoopF, if_pos h1]
  refine chunkLoopF_lower target target [para1] ?_
  have ht : 1 ≤ target := by omega
  have : 18 ≤ 18 * target := by omega
  omega

theorem wordCount_join_sum (sep : List Char)
    (hsep : ∀ c ∈ sep, pyWS c = true) (hne : sep ≠ []) :
    ∀ xs : List (List Char),
      wordCount (joinSep sep xs) = (xs.map wordCount).sum := by
  intro xs
  induction xs with
  | nil => simp [joinSep, wordCount, pySplit, pySplitAux]
  | cons x t ih =>
    cases t with
    | nil => simp [joinSep]
    | cons y t2 =>
      rw [joinSep_cons_ne sep x (y :: t2) (by simp), List.append_assoc]
      unfold wordCount pySplit
      rw [pySplitAux_append_ws sep hsep hne (joinSep sep (y :: t2)) x []]
      rw [List.length_append]
      simp only [pySplit]
      unfold wordCount pySplit at ih
      rw [ih]
      simp

/-- C4 counterexample: for the chapter title "X" with an empty seed, the
padding block emitted for the first chapter by the generic filler
strategy has strictly fewer than 700 words — the loop stops as soon as
the block *plus one more filler paragraph* would reach the target, and
the final paragraph is never appended, so the emitted block itself never
reaches the target word count. -/
theorem C4_counterexample :
    wordCount (joinSep "\n\n".data
      (buildChunk 700 (chapterPara "X".data []))) < 700 := by
  rw [wordCount_join_sum "\n\n".data (by decide) (by decide)]
  rw [← wordCount_join_sum " ".data (by decide) (by decide)]
  exact buildChunk_upper 700 _ (by decide)

/-- C4 amended: whenever the initial chapter paragraph is itself below
the target (and the target is positive), the padding block emitted by the
generic filler strategy comes within one 18-word filler paragraph of the
target without reaching it: target − 18 ≤ words < target (at least 682
words for the 700-word first chapter, at least 882 for the 900-word
subsequent chapters, never the full target). -/
theorem C4_filler_word_bounds (ch seed : List Char) (target : Nat)
    (ht : 0 < target) (hp : wordCount (chapterPara ch seed) < target) :
    wordCount (joinSep "\n\n".data
      (buildChunk target (chapterPara ch seed))) < target ∧
    target ≤ wordCount (joinSep "\n\n".data
      (buildChunk target (chapterPara ch seed))) + 18 := by
  rw [wordCount_join_sum "\n\n".data (by decide) (by decide)]
  rw [← wordCount_join_sum " ".data (by decide) (by decide)]
  exact ⟨buildChunk_upper target _ ht, buildChunk_lower target _ hp⟩

/-- Witness for the amended C4 at the first chapter "X" with empty seed. -/
theorem C4_filler_word_bounds_witness :
    wordCount (joinSep "\n\n".data
      (buildChunk 700 (chapterPara "X".data []))) < 700 ∧
    700 ≤ wordCount (joinSep "\n\n".data
      (buildChunk 700 (chapterPara "X".data []))) + 18 :=
  C4_filler_word_bounds "X".data [] 700 (by decide) (by decide)

/-- Witness for C10 at a concrete input with unsafe characters. -/
theorem C10_slugify_safe_witness :
    slugify "My Book: Vol. 2!".data ≠ [] ∧
    (∀ c ∈ slugify "My Book: Vol. 2!".data, isSlugChar c = true) ∧
    (stripUnd (wsToUnd false ("My Book: Vol. 2!".data.filter isSlugKeep)) = [] →
      slugify "My Book: Vol. 2!".data = "ebook".data) :=
  C10_slugify_safe "My Book: Vol. 2!".data
